import Mathlib

/-!
Verification of the quadtree core of `src/main.rs` (project `quadtreers`).

The spatial index is shallowly embedded: `f32` coordinates are modelled as
exact rationals (every predicate of the index is a pure order comparison),
the recursive `push` (whose recursion depth is unbounded in the source, e.g.
for coincident points) receives an explicit fuel parameter, and panics
(`unreachable!`, `.expect`, the rebalance panic) as well as fuel exhaustion
are modelled by `Option.none` outcomes.  `Result<(), String>` is modelled as
`Option String` (`none` = `Ok(())`), with the error strings abbreviated.
-/

attribute [local semireducible] Rat.add Rat.sub Rat.mul Rat.inv Rat.ofScientific

/-- Source: `type Coord = f32`, modelled as exact rationals. -/
abbrev Coord := ℚ

/-- Source: `type BoidID = usize`. -/
abbrev BoidID := Nat

/-- Source: `const QT_CAPACITY: usize = 12`. -/
def QT_CAPACITY : Nat := 12

/-- Source: `struct Vector2D { x: Coord, y: Coord }` (only the position role
of this type is relevant to the index). -/
structure Vector2D where
  x : Coord
  y : Coord
  deriving DecidableEq, Repr

/-- Source: `struct BoidPool`.  The quadtree reads the pool exclusively via
`BoidPool::get_position`, so the pool is modelled as the lookup function. -/
def BoidPool := BoidID → Vector2D

/-- Source: `BoidPool::get_position` (line 143). -/
def BoidPool.get_position (bp : BoidPool) (id : BoidID) : Vector2D := bp id

/-- Source: `struct RectContainer { lx, rx, ty, by: Coord }`. -/
structure RectContainer where
  lx : Coord
  rx : Coord
  ty : Coord
  by_ : Coord
  deriving DecidableEq, Repr

/-- Source: `RectContainer::new` (line 188). -/
def RectContainer.new (lx rx ty by_ : Coord) : RectContainer :=
  ⟨lx, rx, ty, by_⟩

/-- Source: `RectContainer::new_from_center` (line 192). -/
def RectContainer.new_from_center (cx cy width height : Coord) : RectContainer :=
  let half_width := width / 2
  let half_height := height / 2
  ⟨cx - half_width, cx + half_width, cy - half_height, cy + half_height⟩

/-- Source: `RectContainer::contains` (lines 203-207), inclusive on both axes. -/
def RectContainer.contains (self : RectContainer) (x y : Coord) : Bool :=
  let x_inside := decide (self.lx ≤ x) && decide (x ≤ self.rx)
  let y_inside := decide (self.ty ≤ y) && decide (y ≤ self.by_)
  x_inside && y_inside

/-- Source: `RectContainer::intersects` (lines 209-214). -/
def RectContainer.intersects (self other : RectContainer) : Bool :=
  let no_x_overlap := decide (self.rx < other.lx) || decide (other.rx < self.lx)
  let no_y_overlap := decide (self.by_ < other.ty) || decide (other.by_ < self.ty)
  !(no_x_overlap || no_y_overlap)

/-- Source: `enum Quadrant` (lines 389-394). -/
inductive Quadrant where
  | NE
  | NW
  | SE
  | SW
  deriving DecidableEq, Repr

/-- Source: `struct Quadtree { container, boids, subdivisions: Option<Subdivision> }`
(lines 217-222).  `leaf` is the `subdivisions == None` state and `node` the
`subdivisions == Some(..)` state, carrying the four `Subdivision` children in
the field order `ne, nw, se, sw`. -/
inductive Quadtree where
  | leaf (container : RectContainer) (boids : List BoidID)
  | node (container : RectContainer) (boids : List BoidID)
      (ne nw se sw : Quadtree)
  deriving DecidableEq, Repr

/-- Field accessor for `Quadtree.container`. -/
def Quadtree.container : Quadtree → RectContainer
  | .leaf c _ => c
  | .node c _ _ _ _ _ => c

/-- Field accessor for `Quadtree.boids`. -/
def Quadtree.boids : Quadtree → List BoidID
  | .leaf _ b => b
  | .node _ b _ _ _ _ => b

/-- Field accessor for `Quadtree.subdivisions`, in the tuple order
`(ne, nw, se, sw)`. -/
def Quadtree.subdivisions : Quadtree → Option (Quadtree × Quadtree × Quadtree × Quadtree)
  | .leaf _ _ => none
  | .node _ _ ne nw se sw => some (ne, nw, se, sw)

/-- Source: `Quadtree::new` (lines 225-231): a fresh empty leaf. -/
def Quadtree.new (lx rx ty by_ : Coord) : Quadtree :=
  .leaf (RectContainer.new lx rx ty by_) []

/-- Source: `Quadtree::is_empty` (lines 384-387):
`subdivisions.is_none() && boids.is_empty()`. -/
def Quadtree.is_empty : Quadtree → Bool
  | .leaf _ b => b.isEmpty
  | .node _ _ _ _ _ _ => false

/-- Source: `Subdivision::new_from_parent_container` (lines 26-35), returning
the children as the tuple `(ne, nw, se, sw)`. -/
def Subdivision.new_from_parent_container (container : RectContainer) :
    Quadtree × Quadtree × Quadtree × Quadtree :=
  let cx := (container.lx + container.rx) / 2
  let cy := (container.ty + container.by_) / 2
  let ne := Quadtree.new cx container.rx container.ty cy
  let nw := Quadtree.new container.lx cx container.ty cy
  let sw := Quadtree.new container.lx cx cy container.by_
  let se := Quadtree.new cx container.rx cy container.by_
  (ne, nw, se, sw)

/-- Source: `Subdivision::all_are_empty` (lines 37-39). -/
def Subdivision.all_are_empty (ne nw se sw : Quadtree) : Bool :=
  ne.is_empty && nw.is_empty && se.is_empty && sw.is_empty

/-- Source: `Quadtree::find_which_child` (lines 312-322), factored over the
container (the method only reads `self.container`): `x ≤ cx` is `hor`,
`y ≤ cy` is `ver`, and `(hor, ver)` maps to `NW / SW / NE / SE` exactly as the
source `match`. -/
def find_which_child_of (container : RectContainer) (position : Vector2D) : Quadrant :=
  let cx := (container.lx + container.rx) / 2
  let cy := (container.ty + container.by_) / 2
  if position.x ≤ cx then
    if position.y ≤ cy then .NW else .SW
  else
    if position.y ≤ cy then .NE else .SE

/-- Source: `Quadtree::find_which_child` (lines 312-322). -/
def Quadtree.find_which_child (self : Quadtree) (position : Vector2D) : Quadrant :=
  find_which_child_of self.container position

/-- The reinsertion loop of `Quadtree::subdivide` (lines 291-309).  `push_fn`
is the recursive `Quadtree::push` (at the current fuel).  `none` models the
`.expect(..)` panic on a child push that returns `Err`, and fuel exhaustion
inside a child push. -/
def subdivide_loop
    (push_fn : Quadtree → BoidID → BoidPool → Option (Quadtree × Option String))
    (bp : BoidPool) (container : RectContainer) :
    List BoidID → Quadtree × Quadtree × Quadtree × Quadtree →
      Option (Quadtree × Quadtree × Quadtree × Quadtree)
  | [], sub => some sub
  | boid_id :: rest, (ne, nw, se, sw) =>
    match find_which_child_of container (bp.get_position boid_id) with
    | .NE =>
      match push_fn ne boid_id bp with
      | none => none
      | some (_, some _) => none
      | some (ne', none) => subdivide_loop push_fn bp container rest (ne', nw, se, sw)
    | .NW =>
      match push_fn nw boid_id bp with
      | none => none
      | some (_, some _) => none
      | some (nw', none) => subdivide_loop push_fn bp container rest (ne, nw', se, sw)
    | .SE =>
      match push_fn se boid_id bp with
      | none => none
      | some (_, some _) => none
      | some (se', none) => subdivide_loop push_fn bp container rest (ne, nw, se', sw)
    | .SW =>
      match push_fn sw boid_id bp with
      | none => none
      | some (_, some _) => none
      | some (sw', none) => subdivide_loop push_fn bp container rest (ne, nw, se, sw')

/-- Source: `Quadtree::subdivide` (lines 282-310): install the four fresh
children, take the own boid list, and reinsert every taken boid into its
classified child. -/
def Quadtree.subdivide
    (push_fn : Quadtree → BoidID → BoidPool → Option (Quadtree × Option String))
    (self : Quadtree) (bp : BoidPool) : Option Quadtree :=
  let sub := Subdivision.new_from_parent_container self.container
  match subdivide_loop push_fn bp self.container self.boids sub with
  | none => none
  | some (ne, nw, se, sw) => some (.node self.container [] ne nw se sw)

/-- The delegation block of `Quadtree::push_unchecked_with_position`
(lines 263-279): classify the position and push to that child, wrapping a
child error.  The `leaf` case is the `unreachable!()` arm (`subdivisions` is
known to be `Some` at this point in the source). -/
def Quadtree.push_to_child
    (push_fn : Quadtree → BoidID → BoidPool → Option (Quadtree × Option String))
    (self : Quadtree) (boid_id : BoidID) (bp : BoidPool) (position : Vector2D) :
    Option (Quadtree × Option String) :=
  match self with
  | .leaf _ _ => none
  | .node c b ne nw se sw =>
    match find_which_child_of c position with
    | .NE =>
      match push_fn ne boid_id bp with
      | none => none
      | some (ne', res) =>
        some (.node c b ne' nw se sw,
          res.map (fun e => "Could not push to child: " ++ e))
    | .NW =>
      match push_fn nw boid_id bp with
      | none => none
      | some (nw', res) =>
        some (.node c b ne nw' se sw,
          res.map (fun e => "Could not push to child: " ++ e))
    | .SE =>
      match push_fn se boid_id bp with
      | none => none
      | some (se', res) =>
        some (.node c b ne nw se' sw,
          res.map (fun e => "Could not push to child: " ++ e))
    | .SW =>
      match push_fn sw boid_id bp with
      | none => none
      | some (sw', res) =>
        some (.node c b ne nw se sw',
          res.map (fun e => "Could not push to child: " ++ e))

/-- Source: `Quadtree::push_unchecked_with_position` (lines 246-280):
append when a leaf has room, otherwise subdivide first, then delegate to the
classified child. -/
def Quadtree.push_unchecked_with_position
    (push_fn : Quadtree → BoidID → BoidPool → Option (Quadtree × Option String))
    (self : Quadtree) (boid_id : BoidID) (bp : BoidPool) (position : Vector2D) :
    Option (Quadtree × Option String) :=
  match self with
  | .leaf c b =>
    if b.length < QT_CAPACITY then
      some (.leaf c (b ++ [boid_id]), none)
    else
      match Quadtree.subdivide push_fn (.leaf c b) bp with
      | none => none
      | some self' => Quadtree.push_to_child push_fn self' boid_id bp position
  | .node _ _ _ _ _ _ => Quadtree.push_to_child push_fn self boid_id bp position

/-- Source: `Quadtree::push` (lines 233-244), with a fuel parameter modelling
the unbounded recursion of the source (fuel exhaustion is `none`, like a
panic).  The entry containment check and the `Err` on failure are verbatim;
the error text is abbreviated. -/
def Quadtree.push_entry
    (push_fn : Quadtree → BoidID → BoidPool → Option (Quadtree × Option String))
    (self : Quadtree) (boid_id : BoidID) (bp : BoidPool) :
    Option (Quadtree × Option String) :=
  let position := bp.get_position boid_id
  if self.container.contains position.x position.y then
    Quadtree.push_unchecked_with_position push_fn self boid_id bp position
  else
    some (self, some ("The boid with id " ++ toString boid_id ++
      " cannot go in this quadtree."))

/-- The fueled recursive `Quadtree::push`, written with `Nat.rec` so that it
reduces definitionally; `Quadtree.push_zero` and `Quadtree.push_succ` below
are its defining equations. -/
def Quadtree.push (fuel : Nat) :
    Quadtree → BoidID → BoidPool → Option (Quadtree × Option String) :=
  Nat.rec
    (motive := fun _ => Quadtree → BoidID → BoidPool → Option (Quadtree × Option String))
    (fun _ _ _ => none)
    (fun _ push_fn => Quadtree.push_entry push_fn)
    fuel

theorem Quadtree.push_zero (self : Quadtree) (boid_id : BoidID) (bp : BoidPool) :
    Quadtree.push 0 self boid_id bp = none := rfl

theorem Quadtree.push_succ (fuel : Nat) (self : Quadtree) (boid_id : BoidID)
    (bp : BoidPool) :
    Quadtree.push (fuel + 1) self boid_id bp =
      Quadtree.push_entry (Quadtree.push fuel) self boid_id bp := rfl

/-- The `rejects.retain(|&id| self.push(id, bp).is_err())` step of
`Quadtree::_rebalance` (line 344): visit the rejects in order, push each into
`self` (threading the mutated tree), and keep exactly those whose push
returned `Err`. -/
def Quadtree.rebalance_retain (fuel : Nat) (bp : BoidPool) :
    Quadtree → List BoidID → Option (Quadtree × List BoidID)
  | self, [] => some (self, [])
  | self, boid_id :: rest =>
    match Quadtree.push fuel self boid_id bp with
    | none => none
    | some (self', res) =>
      match Quadtree.rebalance_retain fuel bp self' rest with
      | none => none
      | some (self'', kept) =>
        some (self'', if res.isSome then boid_id :: kept else kept)

/-- Source: `Quadtree::_rebalance` (lines 331-359): post-order child
rebalancing (`ne, nw, se, sw`), collapse when all rebalanced children are
empty, re-offering the gathered rejects to `self`, and in the leaf case the
`boids.retain` scan that evicts boids outside the container. -/
def Quadtree._rebalance (fuel : Nat) (bp : BoidPool) :
    Quadtree → Option (Quadtree × List BoidID)
  | .leaf c b =>
    some (.leaf c
        (b.filter fun id =>
          c.contains (bp.get_position id).x (bp.get_position id).y),
      b.filter fun id =>
        !(c.contains (bp.get_position id).x (bp.get_position id).y))
  | .node c b ne nw se sw =>
    match ne._rebalance fuel bp with
    | none => none
    | some (ne', r1) =>
      match nw._rebalance fuel bp with
      | none => none
      | some (nw', r2) =>
        match se._rebalance fuel bp with
        | none => none
        | some (se', r3) =>
          match sw._rebalance fuel bp with
          | none => none
          | some (sw', r4) =>
            let rejects := r1 ++ r2 ++ r3 ++ r4
            let self' :=
              if Subdivision.all_are_empty ne' nw' se' sw' then
                Quadtree.leaf c b
              else
                Quadtree.node c b ne' nw' se' sw'
            Quadtree.rebalance_retain fuel bp self' rejects

/-- Source: `Quadtree::rebalance` (lines 324-329): `none` models both the
panic fired when orphans survive at the root and fuel exhaustion below. -/
def Quadtree.rebalance (fuel : Nat) (self : Quadtree) (bp : BoidPool) :
    Option Quadtree :=
  match self._rebalance fuel bp with
  | none => none
  | some (self', rejects) => if rejects.isEmpty then some self' else none

/-- Source: `Quadtree::query_range` (lines 361-382): prune on
non-intersection, scan own boids against the query rectangle, then recurse
into all four children (`ne, nw, se, sw`). -/
def Quadtree.query_range : Quadtree → RectContainer → BoidPool → List BoidID
  | .leaf c b, query, bp =>
    if !(c.intersects query) then []
    else
      b.filter fun id =>
        query.contains (bp.get_position id).x (bp.get_position id).y
  | .node c b ne nw se sw, query, bp =>
    if !(c.intersects query) then []
    else
      (b.filter fun id =>
        query.contains (bp.get_position id).x (bp.get_position id).y)
        ++ ne.query_range query bp ++ nw.query_range query bp
        ++ se.query_range query bp ++ sw.query_range query bp

/-! Specification layer: observables and invariants about the embedded code. -/

/-- All boid ids held anywhere in the tree, own collection first, then the
children in the order `ne, nw, se, sw`. -/
def Quadtree.allBoids : Quadtree → List BoidID
  | .leaf _ b => b
  | .node _ b ne nw se sw =>
    b ++ ne.allBoids ++ nw.allBoids ++ se.allBoids ++ sw.allBoids

/-- The held ids as a multiset (ownership counts multiplicity). -/
def Quadtree.allBoidsM (qt : Quadtree) : Multiset BoidID :=
  (qt.allBoids : Multiset BoidID)

/-- A geometrically meaningful rectangle: `lx ≤ rx` and `ty ≤ by`
(spec, section 3). -/
def RectContainer.valid (c : RectContainer) : Prop :=
  c.lx ≤ c.rx ∧ c.ty ≤ c.by_

/-- The rectangle of each quadrant child created by
`Subdivision::new_from_parent_container`. -/
def quadrantRect (c : RectContainer) : Quadrant → RectContainer
  | .NE => RectContainer.new ((c.lx + c.rx) / 2) c.rx c.ty ((c.ty + c.by_) / 2)
  | .NW => RectContainer.new c.lx ((c.lx + c.rx) / 2) c.ty ((c.ty + c.by_) / 2)
  | .SE => RectContainer.new ((c.lx + c.rx) / 2) c.rx ((c.ty + c.by_) / 2) c.by_
  | .SW => RectContainer.new c.lx ((c.lx + c.rx) / 2) ((c.ty + c.by_) / 2) c.by_

/-- Structural well-formedness, maintained by the API: valid rectangle,
internal nodes carry an empty direct collection (spec invariant 3), and the
four children tile the parent at its midpoint (spec invariant 2). -/
def Quadtree.WF : Quadtree → Prop
  | .leaf c _ => c.valid
  | .node c b ne nw se sw =>
    c.valid ∧ b = [] ∧
    ne.container = quadrantRect c .NE ∧ nw.container = quadrantRect c .NW ∧
    se.container = quadrantRect c .SE ∧ sw.container = quadrantRect c .SW ∧
    ne.WF ∧ nw.WF ∧ se.WF ∧ sw.WF

/-- Spec invariant 1: every node's directly held ids lie (per the current
lookup) inside that node's rectangle. -/
def Quadtree.containsInv (bp : BoidPool) : Quadtree → Prop
  | .leaf c b =>
    ∀ id ∈ b, c.contains (bp.get_position id).x (bp.get_position id).y = true
  | .node c b ne nw se sw =>
    (∀ id ∈ b, c.contains (bp.get_position id).x (bp.get_position id).y = true) ∧
    ne.containsInv bp ∧ nw.containsInv bp ∧ se.containsInv bp ∧ sw.containsInv bp

/-- No internal node has four simultaneously empty children; `_rebalance`
establishes this (it collapses such nodes) and `push` preserves it. -/
def Quadtree.noCollapsible : Quadtree → Prop
  | .leaf _ _ => True
  | .node _ _ ne nw se sw =>
    Subdivision.all_are_empty ne nw se sw = false ∧
    ne.noCollapsible ∧ nw.noCollapsible ∧ se.noCollapsible ∧ sw.noCollapsible

/-- The NE quadrant of the root, if the root is subdivided, is an empty leaf. -/
def Quadtree.emptyNE : Quadtree → Prop
  | .leaf _ _ => True
  | .node _ _ ne _ _ _ => ne.is_empty = true

/-- Spec section 8, first property: every held id lies inside the rectangle
of the node holding it and inside every ancestor's rectangle (each node's
rectangle bounds all ids of its whole subtree). -/
def Quadtree.hereditarilyWithin (bp : BoidPool) : Quadtree → Prop
  | .leaf c b =>
    ∀ id ∈ b, c.contains (bp.get_position id).x (bp.get_position id).y = true
  | .node c b ne nw se sw =>
    (∀ id ∈ (Quadtree.node c b ne nw se sw).allBoids,
      c.contains (bp.get_position id).x (bp.get_position id).y = true) ∧
    ne.hereditarilyWithin bp ∧ nw.hereditarilyWithin bp ∧
    se.hereditarilyWithin bp ∧ sw.hereditarilyWithin bp

/-- Sequential insertion (the pattern of `BoidWorld::populate`, line 417):
every push must succeed (`Ok`), anything else aborts. -/
def Quadtree.pushAll (fuel : Nat) (bp : BoidPool) : Quadtree → List BoidID → Option Quadtree
  | qt, [] => some qt
  | qt, boid_id :: rest =>
    match qt.push fuel boid_id bp with
    | some (qt', none) => Quadtree.pushAll fuel bp qt' rest
    | _ => none

/-- One public operation of the index; each operation carries its own lookup
state (positions may change arbitrarily between operations). -/
inductive Op where
  | insertOp (boid_id : BoidID) (bp : BoidPool)
  | rebalanceOp (bp : BoidPool)

/-- Run one operation: `none` is a panic (or fuel exhaustion); otherwise the
new tree together with the list of ids successfully inserted by it (an
insert that returns `GeometryError` inserts nothing). -/
def Quadtree.runOp (fuel : Nat) (qt : Quadtree) : Op → Option (Quadtree × List BoidID)
  | .insertOp boid_id bp =>
    match qt.push fuel boid_id bp with
    | none => none
    | some (qt', none) => some (qt', [boid_id])
    | some (qt', some _) => some (qt', [])
  | .rebalanceOp bp =>
    match qt.rebalance fuel bp with
    | none => none
    | some qt' => some (qt', [])

/-- Run a sequence of operations, collecting all successfully inserted ids. -/
def Quadtree.runOps (fuel : Nat) : Quadtree → List Op → Option (Quadtree × List BoidID)
  | qt, [] => some (qt, [])
  | qt, op :: rest =>
    match qt.runOp fuel op with
    | none => none
    | some (qt', ins1) =>
      match Quadtree.runOps fuel qt' rest with
      | none => none
      | some (qt'', ins2) => some (qt'', ins1 ++ ins2)

/-! Basic lemmas about rectangles, quadrants and tree observables. -/

/-- A point is inside a rectangle per the current lookup. -/
def insideOf (c : RectContainer) (bp : BoidPool) (id : BoidID) : Bool :=
  c.contains (bp.get_position id).x (bp.get_position id).y

theorem RectContainer.contains_iff (c : RectContainer) (x y : Coord) :
    c.contains x y = true ↔ (c.lx ≤ x ∧ x ≤ c.rx) ∧ (c.ty ≤ y ∧ y ≤ c.by_) := by
  simp [RectContainer.contains]

theorem RectContainer.intersects_of_common_point (c r : RectContainer)
    (x y : Coord) (h1 : c.contains x y = true) (h2 : r.contains x y = true) :
    c.intersects r = true := by
  rw [RectContainer.contains_iff] at h1 h2
  simp only [RectContainer.intersects, Bool.not_eq_true', Bool.or_eq_false_iff,
    decide_eq_false_iff_not, not_lt]
  exact ⟨⟨by linarith [h1.1.1, h1.1.2, h2.1.1, h2.1.2],
      by linarith [h1.1.1, h1.1.2, h2.1.1, h2.1.2]⟩,
    by linarith [h1.2.1, h1.2.2, h2.2.1, h2.2.2],
    by linarith [h1.2.1, h1.2.2, h2.2.1, h2.2.2]⟩

theorem quadrantRect_contains_of_contains (c : RectContainer) (p : Vector2D)
    (h : c.contains p.x p.y = true) :
    (quadrantRect c (find_which_child_of c p)).contains p.x p.y = true := by
  rw [RectContainer.contains_iff] at h
  unfold find_which_child_of
  by_cases hx : p.x ≤ (c.lx + c.rx) / 2 <;> by_cases hy : p.y ≤ (c.ty + c.by_) / 2
  · rw [if_pos hx, if_pos hy]
    exact (RectContainer.contains_iff _ _ _).mpr ⟨⟨h.1.1, hx⟩, h.2.1, hy⟩
  · rw [if_pos hx, if_neg hy]
    exact (RectContainer.contains_iff _ _ _).mpr ⟨⟨h.1.1, hx⟩, le_of_not_le hy, h.2.2⟩
  · rw [if_neg hx, if_pos hy]
    exact (RectContainer.contains_iff _ _ _).mpr ⟨⟨le_of_not_le hx, h.1.2⟩, h.2.1, hy⟩
  · rw [if_neg hx, if_neg hy]
    exact (RectContainer.contains_iff _ _ _).mpr
      ⟨⟨le_of_not_le hx, h.1.2⟩, le_of_not_le hy, h.2.2⟩

theorem contains_of_quadrantRect_contains (c : RectContainer) (hv : c.valid)
    (q : Quadrant) (x y : Coord)
    (h : (quadrantRect c q).contains x y = true) : c.contains x y = true := by
  obtain ⟨h1, h2⟩ := hv
  cases q <;>
    simp only [quadrantRect, RectContainer.new, RectContainer.contains_iff] at h ⊢ <;>
    obtain ⟨⟨a1, a2⟩, a3, a4⟩ := h <;>
    exact ⟨⟨by linarith, by linarith⟩, by linarith, by linarith⟩

theorem quadrantRect_valid (c : RectContainer) (hv : c.valid) (q : Quadrant) :
    (quadrantRect c q).valid := by
  obtain ⟨h1, h2⟩ := hv
  cases q <;>
    exact ⟨by simp only [quadrantRect, RectContainer.new]; linarith,
      by simp only [quadrantRect, RectContainer.new]; linarith⟩

theorem quadrant_overlap_on_boundary (c : RectContainer) (q1 q2 : Quadrant)
    (hne : q1 ≠ q2) (x y : Coord)
    (h1 : (quadrantRect c q1).contains x y = true)
    (h2 : (quadrantRect c q2).contains x y = true) :
    x = (c.lx + c.rx) / 2 ∨ y = (c.ty + c.by_) / 2 := by
  cases q1 <;> cases q2 <;> (try exact absurd rfl hne) <;>
    simp only [quadrantRect, RectContainer.new, RectContainer.contains_iff] at h1 h2 <;>
    obtain ⟨⟨a1, a2⟩, a3, a4⟩ := h1 <;> obtain ⟨⟨b1, b2⟩, b3, b4⟩ := h2 <;>
    first
      | exact Or.inl (by linarith)
      | exact Or.inr (by linarith)

theorem find_which_child_of_west (c : RectContainer) (p : Vector2D)
    (h : p.x ≤ (c.lx + c.rx) / 2) :
    find_which_child_of c p = Quadrant.NW ∨ find_which_child_of c p = Quadrant.SW := by
  unfold find_which_child_of
  by_cases hy : p.y ≤ (c.ty + c.by_) / 2 <;> simp [h, hy]

theorem find_which_child_of_north (c : RectContainer) (p : Vector2D)
    (h : p.y ≤ (c.ty + c.by_) / 2) :
    find_which_child_of c p = Quadrant.NW ∨ find_which_child_of c p = Quadrant.NE := by
  unfold find_which_child_of
  by_cases hx : p.x ≤ (c.lx + c.rx) / 2 <;> simp [h, hx]

theorem Quadtree.allBoidsM_leaf (c : RectContainer) (b : List BoidID) :
    (Quadtree.leaf c b).allBoidsM = (b : Multiset BoidID) := rfl

theorem Quadtree.allBoidsM_node (c : RectContainer) (b : List BoidID)
    (ne nw se sw : Quadtree) :
    (Quadtree.node c b ne nw se sw).allBoidsM =
      (b : Multiset BoidID) + ne.allBoidsM + nw.allBoidsM + se.allBoidsM + sw.allBoidsM := by
  simp [Quadtree.allBoidsM, Quadtree.allBoids]

theorem Quadtree.mem_allBoidsM_iff (qt : Quadtree) (id : BoidID) :
    id ∈ qt.allBoidsM ↔ id ∈ qt.allBoids := by
  simp [Quadtree.allBoidsM]

theorem Quadtree.is_empty_eq_false_of_mem (qt : Quadtree) (id : BoidID)
    (h : id ∈ qt.allBoids) : qt.is_empty = false := by
  cases qt with
  | leaf c b =>
    simp only [Quadtree.allBoids] at h
    cases b with
    | nil => cases h
    | cons a t => rfl
  | node c b ne nw se sw => rfl

theorem Quadtree.is_empty_iff (qt : Quadtree) :
    qt.is_empty = true ↔ ∃ c, qt = Quadtree.leaf c [] := by
  cases qt with
  | leaf c b =>
    simp [Quadtree.is_empty, List.isEmpty_iff]
  | node c b ne nw se sw =>
    simp [Quadtree.is_empty]

theorem Quadtree.allBoids_eq_nil_of_is_empty (qt : Quadtree)
    (h : qt.is_empty = true) : qt.allBoids = [] := by
  obtain ⟨c, rfl⟩ := (Quadtree.is_empty_iff qt).mp h
  rfl

theorem Subdivision.all_are_empty_eq_false_of_mem_ne (ne nw se sw : Quadtree)
    (id : BoidID) (h : id ∈ ne.allBoids) :
    Subdivision.all_are_empty ne nw se sw = false := by
  simp [Subdivision.all_are_empty, Quadtree.is_empty_eq_false_of_mem ne id h]

theorem Subdivision.all_are_empty_iff (ne nw se sw : Quadtree) :
    Subdivision.all_are_empty ne nw se sw = true ↔
      ne.is_empty = true ∧ nw.is_empty = true ∧ se.is_empty = true ∧ sw.is_empty = true := by
  simp [Subdivision.all_are_empty, and_assoc]

/-! Unfolding lemmas for the invariants (definitional). -/

theorem Quadtree.containsInv_leaf_iff (bp : BoidPool) (c : RectContainer) (b : List BoidID) :
    (Quadtree.leaf c b).containsInv bp ↔ ∀ id ∈ b, insideOf c bp id = true := Iff.rfl

theorem Quadtree.containsInv_node_iff (bp : BoidPool) (c : RectContainer) (b : List BoidID)
    (ne nw se sw : Quadtree) :
    (Quadtree.node c b ne nw se sw).containsInv bp ↔
      (∀ id ∈ b, insideOf c bp id = true) ∧
      ne.containsInv bp ∧ nw.containsInv bp ∧ se.containsInv bp ∧ sw.containsInv bp := Iff.rfl

theorem Quadtree.WF_leaf_iff (c : RectContainer) (b : List BoidID) :
    (Quadtree.leaf c b).WF ↔ c.valid := Iff.rfl

theorem Quadtree.WF_node_iff (c : RectContainer) (b : List BoidID) (ne nw se sw : Quadtree) :
    (Quadtree.node c b ne nw se sw).WF ↔
      c.valid ∧ b = [] ∧
      ne.container = quadrantRect c .NE ∧ nw.container = quadrantRect c .NW ∧
      se.container = quadrantRect c .SE ∧ sw.container = quadrantRect c .SW ∧
      ne.WF ∧ nw.WF ∧ se.WF ∧ sw.WF := Iff.rfl

theorem Quadtree.noCollapsible_node_iff (c : RectContainer) (b : List BoidID)
    (ne nw se sw : Quadtree) :
    (Quadtree.node c b ne nw se sw).noCollapsible ↔
      Subdivision.all_are_empty ne nw se sw = false ∧
      ne.noCollapsible ∧ nw.noCollapsible ∧ se.noCollapsible ∧ sw.noCollapsible := Iff.rfl

/-! Conclusions of a successful `Quadtree::push`, proved below by induction on
the fuel. -/

/-- What one successful `push` call guarantees, given a well-formed input
tree: the container is unchanged, well-formedness is preserved, and
 - if the position is inside the container: `Ok` is returned, exactly the
   pushed id is added (as a multiset), the containment invariant and the
   no-collapsible-node invariant are preserved, and a subdivided tree stays
   subdivided;
 - if the position is outside: `Err` is returned and the tree is unchanged;
 - a push of an id positioned outside the NE quadrant, into a tree none of
   whose ids are positioned inside the NE quadrant, keeps the root's NE
   child (if any) empty. -/
def PushConc (qt : Quadtree) (boid_id : BoidID) (bp : BoidPool)
    (out : Quadtree × Option String) : Prop :=
  out.1.container = qt.container ∧ out.1.WF ∧
  (insideOf qt.container bp boid_id = true →
    out.2 = none ∧
    out.1.allBoidsM = boid_id ::ₘ qt.allBoidsM ∧
    (qt.containsInv bp → out.1.containsInv bp) ∧
    (qt.noCollapsible → out.1.noCollapsible) ∧
    (qt.subdivisions.isSome = true → out.1.subdivisions.isSome = true)) ∧
  (insideOf qt.container bp boid_id = false →
    out.1 = qt ∧ out.2.isSome = true) ∧
  (insideOf (quadrantRect qt.container .NE) bp boid_id = false →
    (∀ j ∈ qt.allBoids, insideOf (quadrantRect qt.container .NE) bp j = false) →
    qt.emptyNE → out.1.emptyNE)

/-- The push function (at some fuel) meets `PushConc` on well-formed trees. -/
def PushSpec
    (push_fn : Quadtree → BoidID → BoidPool → Option (Quadtree × Option String)) : Prop :=
  ∀ qt boid_id bp out, qt.WF → push_fn qt boid_id bp = some out →
    PushConc qt boid_id bp out

theorem insideOf_true_of_push_ok
    (push_fn : Quadtree → BoidID → BoidPool → Option (Quadtree × Option String))
    (hf : PushSpec push_fn) {child child' : Quadtree} {boid_id : BoidID} {bp : BoidPool}
    (hWF : child.WF) (hp : push_fn child boid_id bp = some (child', none)) :
    insideOf child.container bp boid_id = true := by
  cases hin : insideOf child.container bp boid_id with
  | true => rfl
  | false =>
    have h := (hf child boid_id bp (child', none) hWF hp).2.2.2.1 hin
    simp at h

theorem subdivide_loop_spec
    (push_fn : Quadtree → BoidID → BoidPool → Option (Quadtree × Option String))
    (hf : PushSpec push_fn) (bp : BoidPool) (c : RectContainer) :
    ∀ (ids : List BoidID) (ne nw se sw ne' nw' se' sw' : Quadtree),
      ne.WF → nw.WF → se.WF → sw.WF →
      subdivide_loop push_fn bp c ids (ne, nw, se, sw) = some (ne', nw', se', sw') →
      (ne'.container = ne.container ∧ nw'.container = nw.container ∧
        se'.container = se.container ∧ sw'.container = sw.container) ∧
      (ne'.WF ∧ nw'.WF ∧ se'.WF ∧ sw'.WF) ∧
      (ne'.allBoidsM + nw'.allBoidsM + se'.allBoidsM + sw'.allBoidsM =
        (ids : Multiset BoidID) +
          (ne.allBoidsM + nw.allBoidsM + se.allBoidsM + sw.allBoidsM)) ∧
      ((ne.containsInv bp ∧ nw.containsInv bp ∧ se.containsInv bp ∧ sw.containsInv bp) →
        (ne'.containsInv bp ∧ nw'.containsInv bp ∧ se'.containsInv bp ∧ sw'.containsInv bp)) ∧
      ((ne.noCollapsible ∧ nw.noCollapsible ∧ se.noCollapsible ∧ sw.noCollapsible) →
        (ne'.noCollapsible ∧ nw'.noCollapsible ∧ se'.noCollapsible ∧ sw'.noCollapsible)) ∧
      ((∀ j ∈ ids, insideOf ne.container bp j = false) → ne' = ne) := by
  intro ids
  induction ids with
  | nil =>
    intro ne nw se sw ne' nw' se' sw' h1 h2 h3 h4 hloop
    simp only [subdivide_loop, Option.some.injEq, Prod.mk.injEq] at hloop
    obtain ⟨rfl, rfl, rfl, rfl⟩ := hloop
    exact ⟨⟨rfl, rfl, rfl, rfl⟩, ⟨h1, h2, h3, h4⟩, by simp, id, id, fun _ => rfl⟩
  | cons boid_id rest ih =>
    intro ne nw se sw ne' nw' se' sw' h1 h2 h3 h4 hloop
    simp only [subdivide_loop] at hloop
    split at hloop
    · -- classified NE
      split at hloop
      · simp at hloop
      · simp at hloop
      · rename_i ne1 heq2
        have hin := insideOf_true_of_push_ok push_fn hf h1 heq2
        obtain ⟨hcont, hWF1, hmain, -, -⟩ := hf ne boid_id bp (ne1, none) h1 heq2
        obtain ⟨-, hadd, hcinv, hncol, -⟩ := hmain hin
        obtain ⟨⟨e1, e2, e3, e4⟩, ⟨w1, w2, w3, w4⟩, hsum, hci, hnc, -⟩ :=
          ih ne1 nw se sw ne' nw' se' sw' hWF1 h2 h3 h4 hloop
        refine ⟨⟨e1.trans hcont, e2, e3, e4⟩, ⟨w1, w2, w3, w4⟩, ?_, ?_, ?_, ?_⟩
        · rw [hsum, hadd]
          simp only [← Multiset.cons_coe, Multiset.cons_add, Multiset.add_cons]
        · rintro ⟨i1, i2, i3, i4⟩
          exact hci ⟨hcinv i1, i2, i3, i4⟩
        · rintro ⟨n1, n2, n3, n4⟩
          exact hnc ⟨hncol n1, n2, n3, n4⟩
        · intro hall
          exact absurd hin (by simp [hall boid_id (List.mem_cons_self boid_id rest)])
    · -- classified NW
      split at hloop
      · simp at hloop
      · simp at hloop
      · rename_i nw1 heq2
        have hin := insideOf_true_of_push_ok push_fn hf h2 heq2
        obtain ⟨hcont, hWF1, hmain, -, -⟩ := hf nw boid_id bp (nw1, none) h2 heq2
        obtain ⟨-, hadd, hcinv, hncol, -⟩ := hmain hin
        obtain ⟨⟨e1, e2, e3, e4⟩, ⟨w1, w2, w3, w4⟩, hsum, hci, hnc, hnee⟩ :=
          ih ne nw1 se sw ne' nw' se' sw' h1 hWF1 h3 h4 hloop
        refine ⟨⟨e1, e2.trans hcont, e3, e4⟩, ⟨w1, w2, w3, w4⟩, ?_, ?_, ?_, ?_⟩
        · rw [hsum, hadd]
          simp only [← Multiset.cons_coe, Multiset.cons_add, Multiset.add_cons]
        · rintro ⟨i1, i2, i3, i4⟩
          exact hci ⟨i1, hcinv i2, i3, i4⟩
        · rintro ⟨n1, n2, n3, n4⟩
          exact hnc ⟨n1, hncol n2, n3, n4⟩
        · intro hall
          exact hnee fun j hj => hall j (List.mem_cons_of_mem boid_id hj)
    · -- classified SE
      split at hloop
      · simp at hloop
      · simp at hloop
      · rename_i se1 heq2
        have hin := insideOf_true_of_push_ok push_fn hf h3 heq2
        obtain ⟨hcont, hWF1, hmain, -, -⟩ := hf se boid_id bp (se1, none) h3 heq2
        obtain ⟨-, hadd, hcinv, hncol, -⟩ := hmain hin
        obtain ⟨⟨e1, e2, e3, e4⟩, ⟨w1, w2, w3, w4⟩, hsum, hci, hnc, hnee⟩ :=
          ih ne nw se1 sw ne' nw' se' sw' h1 h2 hWF1 h4 hloop
        refine ⟨⟨e1, e2, e3.trans hcont, e4⟩, ⟨w1, w2, w3, w4⟩, ?_, ?_, ?_, ?_⟩
        · rw [hsum, hadd]
          simp only [← Multiset.cons_coe, Multiset.cons_add, Multiset.add_cons]
        · rintro ⟨i1, i2, i3, i4⟩
          exact hci ⟨i1, i2, hcinv i3, i4⟩
        · rintro ⟨n1, n2, n3, n4⟩
          exact hnc ⟨n1, n2, hncol n3, n4⟩
        · intro hall
          exact hnee fun j hj => hall j (List.mem_cons_of_mem boid_id hj)
    · -- classified SW
      split at hloop
      · simp at hloop
      · simp at hloop
      · rename_i sw1 heq2
        have hin := insideOf_true_of_push_ok push_fn hf h4 heq2
        obtain ⟨hcont, hWF1, hmain, -, -⟩ := hf sw boid_id bp (sw1, none) h4 heq2
        obtain ⟨-, hadd, hcinv, hncol, -⟩ := hmain hin
        obtain ⟨⟨e1, e2, e3, e4⟩, ⟨w1, w2, w3, w4⟩, hsum, hci, hnc, hnee⟩ :=
          ih ne nw se sw1 ne' nw' se' sw' h1 h2 h3 hWF1 hloop
        refine ⟨⟨e1, e2, e3, e4.trans hcont⟩, ⟨w1, w2, w3, w4⟩, ?_, ?_, ?_, ?_⟩
        · rw [hsum, hadd]
          simp only [← Multiset.cons_coe, Multiset.cons_add, Multiset.add_cons]
        · rintro ⟨i1, i2, i3, i4⟩
          exact hci ⟨i1, i2, i3, hcinv i4⟩
        · rintro ⟨n1, n2, n3, n4⟩
          exact hnc ⟨n1, n2, n3, hncol n4⟩
        · intro hall
          exact hnee fun j hj => hall j (List.mem_cons_of_mem boid_id hj)

theorem Subdivision.new_from_parent_container_eq (c : RectContainer) :
    Subdivision.new_from_parent_container c =
      (Quadtree.leaf (quadrantRect c .NE) [], Quadtree.leaf (quadrantRect c .NW) [],
       Quadtree.leaf (quadrantRect c .SE) [], Quadtree.leaf (quadrantRect c .SW) []) := rfl

theorem Quadtree.subdivide_spec
    (push_fn : Quadtree → BoidID → BoidPool → Option (Quadtree × Option String))
    (hf : PushSpec push_fn) (bp : BoidPool)
    (c : RectContainer) (b : List BoidID) (out : Quadtree)
    (hv : c.valid)
    (hsub : Quadtree.subdivide push_fn (Quadtree.leaf c b) bp = some out) :
    out.container = c ∧ out.WF ∧ out.allBoidsM = (b : Multiset BoidID) ∧
    out.containsInv bp ∧ out.subdivisions.isSome = true ∧ out.boids = [] ∧
    (b ≠ [] → out.noCollapsible) ∧
    ((∀ j ∈ b, insideOf (quadrantRect c .NE) bp j = false) → out.emptyNE) := by
  unfold Quadtree.subdivide at hsub
  simp only [Quadtree.container, Quadtree.boids,
    Subdivision.new_from_parent_container_eq] at hsub
  split at hsub
  · exact absurd hsub (by simp)
  · rename_i ne' nw' se' sw' heq
    obtain rfl : Quadtree.node c [] ne' nw' se' sw' = out := by
      simpa using hsub
    have hWFfresh : ∀ q : Quadrant, (Quadtree.leaf (quadrantRect c q) []).WF :=
      fun q => quadrantRect_valid c hv q
    obtain ⟨⟨e1, e2, e3, e4⟩, ⟨w1, w2, w3, w4⟩, hsum, hci, hnc, hnee⟩ :=
      subdivide_loop_spec push_fn hf bp c b _ _ _ _ ne' nw' se' sw'
        (hWFfresh .NE) (hWFfresh .NW) (hWFfresh .SE) (hWFfresh .SW) heq
    have hsum' : ne'.allBoidsM + nw'.allBoidsM + se'.allBoidsM + sw'.allBoidsM =
        (b : Multiset BoidID) := by
      rw [hsum]
      simp [Quadtree.allBoidsM, Quadtree.allBoids]
    refine ⟨rfl, ?_, ?_, ?_, rfl, rfl, ?_, ?_⟩
    · exact ⟨hv, rfl, e1, e2, e3, e4, w1, w2, w3, w4⟩
    · rw [Quadtree.allBoidsM_node]
      simp only [Multiset.coe_nil, zero_add]
      exact hsum'
    · refine (Quadtree.containsInv_node_iff bp c [] ne' nw' se' sw').mpr
        ⟨by simp, ?_⟩
      have := hci ⟨by simp [Quadtree.containsInv_leaf_iff],
        by simp [Quadtree.containsInv_leaf_iff],
        by simp [Quadtree.containsInv_leaf_iff],
        by simp [Quadtree.containsInv_leaf_iff]⟩
      exact this
    · intro hb
      refine (Quadtree.noCollapsible_node_iff c [] ne' nw' se' sw').mpr ⟨?_, ?_⟩
      · cases hae : Subdivision.all_are_empty ne' nw' se' sw' with
        | false => rfl
        | true =>
          exfalso
          obtain ⟨q1, q2, q3, q4⟩ := (Subdivision.all_are_empty_iff _ _ _ _).mp hae
          have z : ne'.allBoidsM + nw'.allBoidsM + se'.allBoidsM + sw'.allBoidsM = 0 := by
            simp [Quadtree.allBoidsM, Quadtree.allBoids_eq_nil_of_is_empty _ q1,
              Quadtree.allBoids_eq_nil_of_is_empty _ q2,
              Quadtree.allBoids_eq_nil_of_is_empty _ q3,
              Quadtree.allBoids_eq_nil_of_is_empty _ q4]
          rw [hsum'] at z
          simp only [Multiset.coe_eq_zero] at z
          exact hb z
      · exact hnc ⟨trivial, trivial, trivial, trivial⟩
    · intro hb
      have : ne' = Quadtree.leaf (quadrantRect c .NE) [] := by
        apply hnee
        intro j hj
        exact hb j hj
      show ne'.is_empty = true
      rw [this]
      rfl

theorem Subdivision.all_are_empty_eq_false_left (ne nw se sw : Quadtree)
    (h : ne.is_empty = false) :
    Subdivision.all_are_empty ne nw se sw = false := by
  simp [Subdivision.all_are_empty, h]

theorem Quadtree.push_to_child_spec
    (push_fn : Quadtree → BoidID → BoidPool → Option (Quadtree × Option String))
    (hf : PushSpec push_fn) (bp : BoidPool)
    (c : RectContainer) (b : List BoidID) (ne nw se sw : Quadtree)
    (boid_id : BoidID) (position : Vector2D) (out : Quadtree × Option String)
    (hpos : position = bp.get_position boid_id)
    (hWF : (Quadtree.node c b ne nw se sw).WF)
    (hin : insideOf c bp boid_id = true)
    (hp : Quadtree.push_to_child push_fn (Quadtree.node c b ne nw se sw)
      boid_id bp position = some out) :
    out.1.container = c ∧ out.1.WF ∧ out.2 = none ∧
    out.1.allBoidsM = boid_id ::ₘ (Quadtree.node c b ne nw se sw).allBoidsM ∧
    ((Quadtree.node c b ne nw se sw).containsInv bp → out.1.containsInv bp) ∧
    ((Quadtree.node c b ne nw se sw).noCollapsible → out.1.noCollapsible) ∧
    out.1.subdivisions.isSome = true ∧
    (insideOf (quadrantRect c .NE) bp boid_id = false →
      (Quadtree.node c b ne nw se sw).emptyNE → out.1.emptyNE) := by
  obtain ⟨hv, hbnil, hne, hnw, hse, hsw, wne, wnw, wse, wsw⟩ := hWF
  subst hpos
  have hcls : (quadrantRect c
      (find_which_child_of c (bp.get_position boid_id))).contains
      (bp.get_position boid_id).x (bp.get_position boid_id).y = true :=
    quadrantRect_contains_of_contains c (bp.get_position boid_id) hin
  simp only [Quadtree.push_to_child] at hp
  split at hp
  · -- classified NE
    rename_i heq
    rw [heq] at hcls
    have hinc : insideOf ne.container bp boid_id = true := by
      rw [insideOf, hne]; exact hcls
    split at hp
    · simp at hp
    · rename_i ne1 res heq2
      obtain ⟨hcont, hWF1, hmain, -, -⟩ := hf ne boid_id bp (ne1, res) wne heq2
      obtain ⟨hres, hadd, hcinv, hncol, -⟩ := hmain hinc
      simp only at hres hcont hadd
      subst hres
      obtain rfl : (Quadtree.node c b ne1 nw se sw, (none : Option String)) = out := by
        simpa using hp
      refine ⟨rfl, ⟨hv, hbnil, hcont.trans hne, hnw, hse, hsw, hWF1, wnw, wse, wsw⟩,
        rfl, ?_, ?_, ?_, rfl, ?_⟩
      · simp only [Quadtree.allBoidsM_node, hadd, Multiset.cons_add, Multiset.add_cons]
      · rintro ⟨ib, ine, inw, ise, isw⟩
        exact ⟨ib, hcinv ine, inw, ise, isw⟩
      · rintro ⟨-, nne, nnw, nse, nsw⟩
        refine ⟨?_, hncol nne, nnw, nse, nsw⟩
        apply Subdivision.all_are_empty_eq_false_left
        apply Quadtree.is_empty_eq_false_of_mem ne1 boid_id
        rw [← Quadtree.mem_allBoidsM_iff, hadd]
        exact Multiset.mem_cons_self boid_id ne.allBoidsM
      · intro hno hempty
        rw [insideOf, ← hne] at hno
        rw [show (Quadtree.node c b ne nw se sw).emptyNE = (ne.is_empty = true) from rfl]
          at hempty
        exact absurd hinc (by simp [insideOf, hno])
  · -- classified NW
    rename_i heq
    rw [heq] at hcls
    have hinc : insideOf nw.container bp boid_id = true := by
      rw [insideOf, hnw]; exact hcls
    split at hp
    · simp at hp
    · rename_i nw1 res heq2
      obtain ⟨hcont, hWF1, hmain, -, -⟩ := hf nw boid_id bp (nw1, res) wnw heq2
      obtain ⟨hres, hadd, hcinv, hncol, -⟩ := hmain hinc
      simp only at hres hcont hadd
      subst hres
      obtain rfl : (Quadtree.node c b ne nw1 se sw, (none : Option String)) = out := by
        simpa using hp
      refine ⟨rfl, ⟨hv, hbnil, hne, hcont.trans hnw, hse, hsw, wne, hWF1, wse, wsw⟩,
        rfl, ?_, ?_, ?_, rfl, ?_⟩
      · simp only [Quadtree.allBoidsM_node, hadd, Multiset.cons_add, Multiset.add_cons]
      · rintro ⟨ib, ine, inw, ise, isw⟩
        exact ⟨ib, ine, hcinv inw, ise, isw⟩
      · rintro ⟨-, nne, nnw, nse, nsw⟩
        refine ⟨?_, nne, hncol nnw, nse, nsw⟩
        simp [Subdivision.all_are_empty, Quadtree.is_empty_eq_false_of_mem nw1 boid_id
          ((Quadtree.mem_allBoidsM_iff nw1 boid_id).mp
            (hadd ▸ Multiset.mem_cons_self boid_id nw.allBoidsM))]
      · intro hno hempty
        exact hempty
  · -- classified SE
    rename_i heq
    rw [heq] at hcls
    have hinc : insideOf se.container bp boid_id = true := by
      rw [insideOf, hse]; exact hcls
    split at hp
    · simp at hp
    · rename_i se1 res heq2
      obtain ⟨hcont, hWF1, hmain, -, -⟩ := hf se boid_id bp (se1, res) wse heq2
      obtain ⟨hres, hadd, hcinv, hncol, -⟩ := hmain hinc
      simp only at hres hcont hadd
      subst hres
      obtain rfl : (Quadtree.node c b ne nw se1 sw, (none : Option String)) = out := by
        simpa using hp
      refine ⟨rfl, ⟨hv, hbnil, hne, hnw, hcont.trans hse, hsw, wne, wnw, hWF1, wsw⟩,
        rfl, ?_, ?_, ?_, rfl, ?_⟩
      · simp only [Quadtree.allBoidsM_node, hadd, Multiset.cons_add, Multiset.add_cons]
      · rintro ⟨ib, ine, inw, ise, isw⟩
        exact ⟨ib, ine, inw, hcinv ise, isw⟩
      · rintro ⟨-, nne, nnw, nse, nsw⟩
        refine ⟨?_, nne, nnw, hncol nse, nsw⟩
        simp [Subdivision.all_are_empty, Quadtree.is_empty_eq_false_of_mem se1 boid_id
          ((Quadtree.mem_allBoidsM_iff se1 boid_id).mp
            (hadd ▸ Multiset.mem_cons_self boid_id se.allBoidsM))]
      · intro hno hempty
        exact hempty
  · -- classified SW
    rename_i heq
    rw [heq] at hcls
    have hinc : insideOf sw.container bp boid_id = true := by
      rw [insideOf, hsw]; exact hcls
    split at hp
    · simp at hp
    · rename_i sw1 res heq2
      obtain ⟨hcont, hWF1, hmain, -, -⟩ := hf sw boid_id bp (sw1, res) wsw heq2
      obtain ⟨hres, hadd, hcinv, hncol, -⟩ := hmain hinc
      simp only at hres hcont hadd
      subst hres
      obtain rfl : (Quadtree.node c b ne nw se sw1, (none : Option String)) = out := by
        simpa using hp
      refine ⟨rfl, ⟨hv, hbnil, hne, hnw, hse, hcont.trans hsw, wne, wnw, wse, hWF1⟩,
        rfl, ?_, ?_, ?_, rfl, ?_⟩
      · simp only [Quadtree.allBoidsM_node, hadd, Multiset.cons_add, Multiset.add_cons]
      · rintro ⟨ib, ine, inw, ise, isw⟩
        exact ⟨ib, ine, inw, ise, hcinv isw⟩
      · rintro ⟨-, nne, nnw, nse, nsw⟩
        refine ⟨?_, nne, nnw, nse, hncol nsw⟩
        simp [Subdivision.all_are_empty, Quadtree.is_empty_eq_false_of_mem sw1 boid_id
          ((Quadtree.mem_allBoidsM_iff sw1 boid_id).mp
            (hadd ▸ Multiset.mem_cons_self boid_id sw.allBoidsM))]
      · intro hno hempty
        exact hempty

theorem Quadtree.push_unchecked_spec
    (push_fn : Quadtree → BoidID → BoidPool → Option (Quadtree × Option String))
    (hf : PushSpec push_fn) (bp : BoidPool)
    (qt : Quadtree) (boid_id : BoidID) (position : Vector2D)
    (out : Quadtree × Option String)
    (hpos : position = bp.get_position boid_id)
    (hWF : qt.WF)
    (hin : insideOf qt.container bp boid_id = true)
    (hp : Quadtree.push_unchecked_with_position push_fn qt boid_id bp position = some out) :
    out.1.container = qt.container ∧ out.1.WF ∧ out.2 = none ∧
    out.1.allBoidsM = boid_id ::ₘ qt.allBoidsM ∧
    (qt.containsInv bp → out.1.containsInv bp) ∧
    (qt.noCollapsible → out.1.noCollapsible) ∧
    (qt.subdivisions.isSome = true → out.1.subdivisions.isSome = true) ∧
    (insideOf (quadrantRect qt.container .NE) bp boid_id = false →
      (∀ j ∈ qt.allBoids, insideOf (quadrantRect qt.container .NE) bp j = false) →
      qt.emptyNE → out.1.emptyNE) := by
  cases qt with
  | node c b ne nw se sw =>
    simp only [Quadtree.push_unchecked_with_position] at hp
    obtain ⟨a1, a2, a3, a4, a5, a6, a7, a8⟩ :=
      Quadtree.push_to_child_spec push_fn hf bp c b ne nw se sw boid_id position out
        hpos hWF hin hp
    exact ⟨a1, a2, a3, a4, a5, a6, fun _ => a7, fun h1 _ h3 => a8 h1 h3⟩
  | leaf c b =>
    simp only [Quadtree.push_unchecked_with_position] at hp
    by_cases hlen : b.length < QT_CAPACITY
    · rw [if_pos hlen] at hp
      obtain rfl : (Quadtree.leaf c (b ++ [boid_id]), (none : Option String)) = out := by
        simpa using hp
      refine ⟨rfl, hWF, rfl, ?_, ?_, fun _ => trivial, by simp [Quadtree.subdivisions],
        fun _ _ _ => trivial⟩
      · show ((b ++ [boid_id] : List BoidID) : Multiset BoidID) =
          boid_id ::ₘ (b : Multiset BoidID)
        simp [Multiset.add_cons]
      · intro hci
        rw [Quadtree.containsInv_leaf_iff] at hci ⊢
        intro id hid
        rcases List.mem_append.mp hid with h | h
        · exact hci id h
        · rw [List.mem_singleton.mp h]
          exact hin
    · rw [if_neg hlen] at hp
      split at hp
      · simp at hp
      · rename_i qt1 heqsub
        obtain ⟨s1, s2, s3, s4, s5, s6, s7, s8⟩ :=
          Quadtree.subdivide_spec push_fn hf bp c b qt1 hWF heqsub
        have hb : b ≠ [] := by
          intro h
          subst h
          exact hlen (by simp [QT_CAPACITY])
        cases qt1 with
        | leaf c1 b1 => simp [Quadtree.subdivisions] at s5
        | node c1 b1 ne1 nw1 se1 sw1 =>
          obtain rfl : c1 = c := s1
          obtain rfl : b1 = [] := s6
          obtain ⟨a1, a2, a3, a4, a5, a6, a7, a8⟩ :=
            Quadtree.push_to_child_spec push_fn hf bp c1 [] ne1 nw1 se1 sw1 boid_id
              position out hpos s2 hin hp
          refine ⟨a1, a2, a3, ?_, fun _ => a5 s4, fun _ => a6 (s7 hb), fun _ => a7, ?_⟩
          · rw [a4, s3]
            rfl
          · intro h1 h2 _
            exact a8 h1 (s8 h2)

/-- Main specification of `Quadtree::push`, at every fuel. -/
theorem Quadtree.push_spec : ∀ fuel : Nat, PushSpec (Quadtree.push fuel) := by
  intro fuel
  induction fuel with
  | zero =>
    intro qt boid_id bp out hWF h
    rw [Quadtree.push_zero] at h
    cases h
  | succ n ih =>
    intro qt boid_id bp out hWF h
    rw [Quadtree.push_succ] at h
    simp only [Quadtree.push_entry] at h
    cases hin : qt.container.contains (bp.get_position boid_id).x
        (bp.get_position boid_id).y with
    | true =>
      rw [if_pos hin] at h
      obtain ⟨a1, a2, a3, a4, a5, a6, a7, a8⟩ :=
        Quadtree.push_unchecked_spec (Quadtree.push n) ih bp qt boid_id
          (bp.get_position boid_id) out rfl hWF hin h
      refine ⟨a1, a2, fun _ => ⟨a3, a4, a5, a6, a7⟩, fun hfalse => ?_, a8⟩
      rw [show insideOf qt.container bp boid_id =
        qt.container.contains (bp.get_position boid_id).x (bp.get_position boid_id).y
        from rfl, hin] at hfalse
      cases hfalse
    | false =>
      rw [if_neg (by simp [hin])] at h
      simp only [Option.some.injEq] at h
      subst h
      refine ⟨rfl, hWF, fun htrue => ?_, fun _ => ⟨rfl, rfl⟩, fun _ _ h3 => h3⟩
      rw [show insideOf qt.container bp boid_id =
        qt.container.contains (bp.get_position boid_id).x (bp.get_position boid_id).y
        from rfl, hin] at htrue
      cases htrue

theorem Quadtree.rebalance_retain_spec (fuel : Nat) (bp : BoidPool) :
    ∀ (ids : List BoidID) (qt : Quadtree) (out : Quadtree × List BoidID),
      qt.WF →
      Quadtree.rebalance_retain fuel bp qt ids = some out →
      out.1.container = qt.container ∧ out.1.WF ∧
      out.1.allBoidsM = qt.allBoidsM +
        Multiset.filter (fun id => insideOf qt.container bp id = true)
          (ids : Multiset BoidID) ∧
      ((out.2 : Multiset BoidID) =
        Multiset.filter (fun id => insideOf qt.container bp id = false)
          (ids : Multiset BoidID)) ∧
      (qt.containsInv bp → out.1.containsInv bp) ∧
      (qt.noCollapsible → out.1.noCollapsible) ∧
      ((∀ j ∈ ids, insideOf (quadrantRect qt.container .NE) bp j = false) →
        (∀ j ∈ qt.allBoids, insideOf (quadrantRect qt.container .NE) bp j = false) →
        qt.emptyNE → out.1.emptyNE) := by
  intro ids
  induction ids with
  | nil =>
    intro qt out hWF hr
    obtain rfl : (qt, ([] : List BoidID)) = out := by
      simpa [Quadtree.rebalance_retain] using hr
    exact ⟨rfl, hWF, by simp, by simp, id, id, fun _ _ h => h⟩
  | cons boid_id rest ih =>
    intro qt out hWF hr
    simp only [Quadtree.rebalance_retain] at hr
    split at hr
    · exact absurd hr (by simp)
    · rename_i qt1 res heqp
      split at hr
      · exact absurd hr (by simp)
      · rename_i qt2 kept heqr
        obtain ⟨p1, p2, pmain, pout, pne⟩ :=
          Quadtree.push_spec fuel qt boid_id bp (qt1, res) hWF heqp
        simp only at p1 p2
        cases hin : insideOf qt.container bp boid_id with
        | true =>
          obtain ⟨hres, hadd, hci, hnc, -⟩ := pmain hin
          simp only at hres hadd
          subst hres
          obtain ⟨c1, c2, c3, c4, c5, c6, c7⟩ := ih qt1 (qt2, kept) p2 heqr
          simp only at c1 c2 c3 c4 c5 c6 c7
          obtain rfl : (qt2, kept) = out := by simpa using hr
          rw [p1] at c1 c3 c4 c7
          have hfpos : Multiset.filter (fun id => insideOf qt.container bp id = true)
              (boid_id ::ₘ (rest : Multiset BoidID)) =
              boid_id ::ₘ Multiset.filter (fun id => insideOf qt.container bp id = true)
                (rest : Multiset BoidID) :=
            Multiset.filter_cons_of_pos _ hin
          have hfneg : Multiset.filter (fun id => insideOf qt.container bp id = false)
              (boid_id ::ₘ (rest : Multiset BoidID)) =
              Multiset.filter (fun id => insideOf qt.container bp id = false)
                (rest : Multiset BoidID) :=
            Multiset.filter_cons_of_neg _ (by simp [hin])
          refine ⟨c1, c2, ?_, ?_, fun h => c5 (hci h), fun h => c6 (hnc h), ?_⟩
          · rw [c3, hadd, ← Multiset.cons_coe, hfpos]
            simp only [Multiset.cons_add, Multiset.add_cons]
          · show (kept : Multiset BoidID) = _
            rw [← Multiset.cons_coe, hfneg, c4]
          · intro hids hall hne
            have hbfalse := hids boid_id (List.mem_cons_self boid_id rest)
            refine c7 (fun j hj => hids j (List.mem_cons_of_mem boid_id hj)) ?_
              (pne hbfalse hall hne)
            intro j hj
            rw [← Quadtree.mem_allBoidsM_iff, hadd, Multiset.mem_cons] at hj
            rcases hj with rfl | hj
            · exact hbfalse
            · exact hall j ((Quadtree.mem_allBoidsM_iff qt j).mp hj)
        | false =>
          obtain ⟨hqt1, hsome⟩ := pout hin
          simp only at hqt1 hsome
          subst hqt1
          obtain ⟨c1, c2, c3, c4, c5, c6, c7⟩ := ih qt1 (qt2, kept) hWF heqr
          rw [Option.isSome_iff_exists] at hsome
          obtain ⟨msg, rfl⟩ := hsome
          obtain rfl : (qt2, boid_id :: kept) = out := by simpa using hr
          have hfpos : Multiset.filter (fun id => insideOf qt1.container bp id = false)
              (boid_id ::ₘ (rest : Multiset BoidID)) =
              boid_id ::ₘ Multiset.filter (fun id => insideOf qt1.container bp id = false)
                (rest : Multiset BoidID) :=
            Multiset.filter_cons_of_pos _ hin
          have hfneg : Multiset.filter (fun id => insideOf qt1.container bp id = true)
              (boid_id ::ₘ (rest : Multiset BoidID)) =
              Multiset.filter (fun id => insideOf qt1.container bp id = true)
                (rest : Multiset BoidID) :=
            Multiset.filter_cons_of_neg _ (by simp [hin])
          refine ⟨c1, c2, ?_, ?_, c5, c6, ?_⟩
          · rw [c3, ← Multiset.cons_coe, hfneg]
          · show ((boid_id :: kept : List BoidID) : Multiset BoidID) = _
            rw [← Multiset.cons_coe, ← Multiset.cons_coe, hfpos, c4]
          · intro hids hall hne
            exact c7 (fun j hj => hids j (List.mem_cons_of_mem boid_id hj)) hall hne

theorem coe_filter_bool (p : BoidID → Bool) (l : List BoidID) :
    ((l.filter p : List BoidID) : Multiset BoidID) =
      Multiset.filter (fun id => p id = true) (l : Multiset BoidID) := by
  induction l with
  | nil => simp
  | cons a t ih =>
    cases hpa : p a with
    | true =>
      have h2 : Multiset.filter (fun id => p id = true) (a ::ₘ (t : Multiset BoidID)) =
          a ::ₘ Multiset.filter (fun id => p id = true) (t : Multiset BoidID) :=
        Multiset.filter_cons_of_pos _ hpa
      rw [List.filter_cons_of_pos hpa, ← Multiset.cons_coe, ← Multiset.cons_coe, h2, ih]
    | false =>
      have h2 : Multiset.filter (fun id => p id = true) (a ::ₘ (t : Multiset BoidID)) =
          Multiset.filter (fun id => p id = true) (t : Multiset BoidID) :=
        Multiset.filter_cons_of_neg _ (by simp [hpa])
      rw [List.filter_cons_of_neg (by simp [hpa]), ← Multiset.cons_coe, h2, ih]

theorem insideOf_of_quadrant (c : RectContainer) (hv : c.valid) (q : Quadrant)
    (bp : BoidPool) (id : BoidID)
    (h : insideOf (quadrantRect c q) bp id = true) : insideOf c bp id = true :=
  contains_of_quadrantRect_contains c hv q _ _ h

theorem child_filter_combine (cp cc : RectContainer) (bp : BoidPool) (X : Multiset BoidID)
    (hsub : ∀ id, insideOf cc bp id = true → insideOf cp bp id = true) :
    (Multiset.filter (fun id => insideOf cc bp id = true) X +
      Multiset.filter (fun id => insideOf cp bp id = true)
        (Multiset.filter (fun id => insideOf cc bp id = false) X) =
      Multiset.filter (fun id => insideOf cp bp id = true) X) ∧
    (Multiset.filter (fun id => insideOf cp bp id = false)
        (Multiset.filter (fun id => insideOf cc bp id = false) X) =
      Multiset.filter (fun id => insideOf cp bp id = false) X) := by
  have hsplit : Multiset.filter (fun id => insideOf cc bp id = true) X +
      Multiset.filter (fun id => insideOf cc bp id = false) X = X := by
    have := Multiset.filter_add_not (fun id => insideOf cc bp id = true) X
    rw [Multiset.filter_congr (fun x _ => by simp : ∀ x ∈ X,
      (¬ insideOf cc bp x = true) ↔ (insideOf cc bp x = false))] at this
    exact this
  constructor
  · conv_rhs => rw [← hsplit]
    rw [Multiset.filter_add]
    congr 1
    symm
    apply (Multiset.filter_eq_self).mpr
    intro a ha
    exact hsub a (Multiset.mem_filter.mp ha).2
  · conv_rhs => rw [← hsplit]
    rw [Multiset.filter_add]
    have hzero : Multiset.filter (fun id => insideOf cp bp id = false)
        (Multiset.filter (fun id => insideOf cc bp id = true) X) = 0 := by
      rw [Multiset.filter_eq_nil]
      intro a ha
      simp [hsub a (Multiset.mem_filter.mp ha).2]
    rw [hzero, zero_add]

theorem insideOf_filter_split (r : RectContainer) (bp : BoidPool) (X : Multiset BoidID) :
    Multiset.filter (fun id => insideOf r bp id = true) X +
      Multiset.filter (fun id => insideOf r bp id = false) X = X := by
  have h := Multiset.filter_add_not (fun id => insideOf r bp id = true) X
  rw [Multiset.filter_congr (fun x _ => by simp : ∀ x ∈ X,
    (¬ insideOf r bp x = true) ↔ (insideOf r bp x = false))] at h
  exact h

theorem Quadtree._rebalance_spec (fuel : Nat) (bp : BoidPool) :
    ∀ (qt : Quadtree) (out : Quadtree × List BoidID),
      qt.WF →
      Quadtree._rebalance fuel bp qt = some out →
      out.1.container = qt.container ∧ out.1.WF ∧
      out.1.containsInv bp ∧ out.1.noCollapsible ∧
      out.1.allBoidsM =
        Multiset.filter (fun id => insideOf qt.container bp id = true) qt.allBoidsM ∧
      ((out.2 : Multiset BoidID) =
        Multiset.filter (fun id => insideOf qt.container bp id = false) qt.allBoidsM) := by
  intro qt
  induction qt with
  | leaf c b =>
    intro out hWF hr
    simp only [Quadtree._rebalance, Option.some.injEq] at hr
    subst hr
    refine ⟨rfl, hWF, ?_, trivial, ?_, ?_⟩
    · intro id hid
      have h2 := (List.mem_filter.mp hid).2
      simpa [insideOf, Quadtree.container] using h2
    · simp only [Quadtree.allBoidsM_leaf, Quadtree.container]
      rw [coe_filter_bool _ b]
      exact Multiset.filter_congr (fun x _ => by simp [insideOf])
    · simp only [Quadtree.allBoidsM_leaf, Quadtree.container]
      rw [coe_filter_bool _ b]
      exact Multiset.filter_congr (fun x _ => by simp [insideOf])
  | node c b ne nw se sw ihne ihnw ihse ihsw =>
    intro out hWF hr
    obtain ⟨hv, hbnil, hne, hnw, hse, hsw, wne, wnw, wse, wsw⟩ := hWF
    subst hbnil
    simp only [Quadtree._rebalance] at hr
    split at hr
    · exact absurd hr (by simp)
    · rename_i ne' r1 heq1
      split at hr
      · exact absurd hr (by simp)
      · rename_i nw' r2 heq2
        split at hr
        · exact absurd hr (by simp)
        · rename_i se' r3 heq3
          split at hr
          · exact absurd hr (by simp)
          · rename_i sw' r4 heq4
            obtain ⟨a1, a2, a3, a4, a5, a6⟩ := ihne (ne', r1) wne heq1
            obtain ⟨b1, b2, b3, b4, b5, b6⟩ := ihnw (nw', r2) wnw heq2
            obtain ⟨d1, d2, d3, d4, d5, d6⟩ := ihse (se', r3) wse heq3
            obtain ⟨e1, e2, e3, e4, e5, e6⟩ := ihsw (sw', r4) wsw heq4
            simp only at a1 a3 a4 a5 a6 b1 b3 b4 b5 b6 d1 d3 d4 d5 d6 e1 e3 e4 e5 e6
            have hsubne : ∀ id, insideOf ne.container bp id = true →
                insideOf c bp id = true := by
              intro id h
              rw [hne] at h
              exact insideOf_of_quadrant c hv _ bp id h
            have hsubnw : ∀ id, insideOf nw.container bp id = true →
                insideOf c bp id = true := by
              intro id h
              rw [hnw] at h
              exact insideOf_of_quadrant c hv _ bp id h
            have hsubse : ∀ id, insideOf se.container bp id = true →
                insideOf c bp id = true := by
              intro id h
              rw [hse] at h
              exact insideOf_of_quadrant c hv _ bp id h
            have hsubsw : ∀ id, insideOf sw.container bp id = true →
                insideOf c bp id = true := by
              intro id h
              rw [hsw] at h
              exact insideOf_of_quadrant c hv _ bp id h
            have hQ : (Quadtree.node c [] ne nw se sw).allBoidsM =
                ne.allBoidsM + nw.allBoidsM + se.allBoidsM + sw.allBoidsM := by
              rw [Quadtree.allBoidsM_node]
              simp
            have hids : ((r1 ++ r2 ++ r3 ++ r4 : List BoidID) : Multiset BoidID) =
                (r1 : Multiset BoidID) + ↑r2 + ↑r3 + ↑r4 := by
              simp
            cases hae : Subdivision.all_are_empty ne' nw' se' sw' with
            | true =>
              rw [if_pos hae] at hr
              obtain ⟨q1, q2, q3, q4⟩ := (Subdivision.all_are_empty_iff _ _ _ _).mp hae
              have hz1 : ne'.allBoidsM = 0 := by
                simp [Quadtree.allBoidsM, Quadtree.allBoids_eq_nil_of_is_empty ne' q1]
              have hz2 : nw'.allBoidsM = 0 := by
                simp [Quadtree.allBoidsM, Quadtree.allBoids_eq_nil_of_is_empty nw' q2]
              have hz3 : se'.allBoidsM = 0 := by
                simp [Quadtree.allBoidsM, Quadtree.allBoids_eq_nil_of_is_empty se' q3]
              have hz4 : sw'.allBoidsM = 0 := by
                simp [Quadtree.allBoidsM, Quadtree.allBoids_eq_nil_of_is_empty sw' q4]
              have hXne : (r1 : Multiset BoidID) = ne.allBoidsM := by
                have hsplit := insideOf_filter_split ne.container bp ne.allBoidsM
                rw [← a5, hz1, zero_add] at hsplit
                rw [a6, hsplit]
              have hXnw : (r2 : Multiset BoidID) = nw.allBoidsM := by
                have hsplit := insideOf_filter_split nw.container bp nw.allBoidsM
                rw [← b5, hz2, zero_add] at hsplit
                rw [b6, hsplit]
              have hXse : (r3 : Multiset BoidID) = se.allBoidsM := by
                have hsplit := insideOf_filter_split se.container bp se.allBoidsM
                rw [← d5, hz3, zero_add] at hsplit
                rw [d6, hsplit]
              have hXsw : (r4 : Multiset BoidID) = sw.allBoidsM := by
                have hsplit := insideOf_filter_split sw.container bp sw.allBoidsM
                rw [← e5, hz4, zero_add] at hsplit
                rw [e6, hsplit]
              obtain ⟨t1, t2, t3, t4, t5, t6, -⟩ :=
                Quadtree.rebalance_retain_spec fuel bp (r1 ++ r2 ++ r3 ++ r4)
                  (Quadtree.leaf c []) out hv hr
              simp only [Quadtree.container] at t1 t3 t4
              refine ⟨?_, t2, t5 (by intro id hid; cases hid), t6 trivial, ?_, ?_⟩
              · simp only [Quadtree.container]
                exact t1
              · simp only [Quadtree.container]
                rw [t3, hids, hXne, hXnw, hXse, hXsw, hQ]
                simp [Quadtree.allBoidsM, Quadtree.allBoids]
              · simp only [Quadtree.container]
                rw [t4, hids, hXne, hXnw, hXse, hXsw, hQ]
            | false =>
              rw [if_neg (by simp [hae])] at hr
              have hWF1 : (Quadtree.node c [] ne' nw' se' sw').WF :=
                ⟨hv, rfl, a1.trans hne, b1.trans hnw, d1.trans hse, e1.trans hsw,
                  a2, b2, d2, e2⟩
              obtain ⟨t1, t2, t3, t4, t5, t6, -⟩ :=
                Quadtree.rebalance_retain_spec fuel bp (r1 ++ r2 ++ r3 ++ r4)
                  (Quadtree.node c [] ne' nw' se' sw') out hWF1 hr
              simp only [Quadtree.container] at t1 t3 t4
              have hqt1 : (Quadtree.node c [] ne' nw' se' sw').allBoidsM =
                  ne'.allBoidsM + nw'.allBoidsM + se'.allBoidsM + sw'.allBoidsM := by
                rw [Quadtree.allBoidsM_node]
                simp
              refine ⟨?_, t2,
                t5 ⟨(by intro id hid; cases hid), a3, b3, d3, e3⟩,
                t6 ⟨hae, a4, b4, d4, e4⟩, ?_, ?_⟩
              · simp only [Quadtree.container]
                exact t1
              · simp only [Quadtree.container]
                rw [t3, hids, a6, b6, d6, e6, hqt1, a5, b5, d5, e5, hQ,
                  Multiset.filter_add, Multiset.filter_add, Multiset.filter_add,
                  Multiset.filter_add, Multiset.filter_add, Multiset.filter_add,
                  ← (child_filter_combine c ne.container bp ne.allBoidsM hsubne).1,
                  ← (child_filter_combine c nw.container bp nw.allBoidsM hsubnw).1,
                  ← (child_filter_combine c se.container bp se.allBoidsM hsubse).1,
                  ← (child_filter_combine c sw.container bp sw.allBoidsM hsubsw).1]
                simp only [add_assoc, add_comm, add_left_comm]
              · simp only [Quadtree.container]
                rw [t4, hids, a6, b6, d6, e6, hQ,
                  Multiset.filter_add, Multiset.filter_add, Multiset.filter_add,
                  Multiset.filter_add, Multiset.filter_add, Multiset.filter_add,
                  (child_filter_combine c ne.container bp ne.allBoidsM hsubne).2,
                  (child_filter_combine c nw.container bp nw.allBoidsM hsubnw).2,
                  (child_filter_combine c se.container bp se.allBoidsM hsubse).2,
                  (child_filter_combine c sw.container bp sw.allBoidsM hsubsw).2]

theorem Quadtree.rebalance_identity (fuel : Nat) (bp : BoidPool) :
    ∀ qt : Quadtree, qt.WF → qt.containsInv bp → qt.noCollapsible →
      Quadtree._rebalance fuel bp qt = some (qt, []) := by
  intro qt
  induction qt with
  | leaf c b =>
    intro hWF hci hnc
    simp only [Quadtree._rebalance, Option.some.injEq, Prod.mk.injEq]
    refine ⟨?_, ?_⟩
    · rw [List.filter_eq_self.mpr]
      intro a ha
      exact hci a ha
    · rw [List.filter_eq_nil_iff.mpr]
      intro a ha
      simp [hci a ha]
  | node c b ne nw se sw ihne ihnw ihse ihsw =>
    intro hWF hci hnc
    obtain ⟨hv, hbnil, hne, hnw, hse, hsw, wne, wnw, wse, wsw⟩ := hWF
    obtain ⟨hb, ine, inw, ise, isw⟩ := hci
    obtain ⟨hae, nne, nnw, nse, nsw⟩ := hnc
    subst hbnil
    simp only [Quadtree._rebalance, ihne wne ine nne, ihnw wnw inw nnw,
      ihse wse ise nse, ihsw wsw isw nsw, List.append_nil, List.nil_append]
    rw [if_neg (by simp [hae])]
    simp [Quadtree.rebalance_retain]

/-- A second rebalance with no intervening position change is the identity. -/
theorem Quadtree.rebalance_twice (fuel fuel2 : Nat) (qt qt' : Quadtree) (bp : BoidPool)
    (hWF : qt.WF) (h1 : qt.rebalance fuel bp = some qt') :
    qt'.rebalance fuel2 bp = some qt' := by
  unfold Quadtree.rebalance at h1 ⊢
  split at h1
  · exact absurd h1 (by simp)
  · rename_i qt1 rejects heq
    split at h1
    · rename_i hempty
      simp only [Option.some.injEq] at h1
      subst h1
      obtain ⟨-, w2, w3, w4, -, -⟩ := Quadtree._rebalance_spec fuel bp qt (qt1, rejects) hWF heq
      simp only at w2 w3 w4
      rw [Quadtree.rebalance_identity fuel2 bp qt1 w2 w3 w4]
      simp
    · exact absurd h1 (by simp)

theorem Quadtree.allBoids_within (bp : BoidPool) :
    ∀ qt : Quadtree, qt.WF → qt.containsInv bp →
      ∀ id ∈ qt.allBoids, insideOf qt.container bp id = true := by
  intro qt
  induction qt with
  | leaf c b =>
    intro hWF hci id hid
    exact hci id hid
  | node c b ne nw se sw ihne ihnw ihse ihsw =>
    intro hWF hci id hid
    obtain ⟨hv, hbnil, hne, hnw, hse, hsw, wne, wnw, wse, wsw⟩ := hWF
    obtain ⟨hb, ine, inw, ise, isw⟩ := hci
    simp only [Quadtree.allBoids, List.mem_append] at hid
    show insideOf c bp id = true
    rcases hid with (((hid | hid) | hid) | hid) | hid
    · exact hb id hid
    · have h := ihne wne ine id hid
      rw [hne] at h
      exact insideOf_of_quadrant c hv _ bp id h
    · have h := ihnw wnw inw id hid
      rw [hnw] at h
      exact insideOf_of_quadrant c hv _ bp id h
    · have h := ihse wse ise id hid
      rw [hse] at h
      exact insideOf_of_quadrant c hv _ bp id h
    · have h := ihsw wsw isw id hid
      rw [hsw] at h
      exact insideOf_of_quadrant c hv _ bp id h

theorem Quadtree.hereditarilyWithin_of (bp : BoidPool) :
    ∀ qt : Quadtree, qt.WF → qt.containsInv bp → qt.hereditarilyWithin bp := by
  intro qt
  induction qt with
  | leaf c b =>
    intro hWF hci
    exact hci
  | node c b ne nw se sw ihne ihnw ihse ihsw =>
    intro hWF hci
    have hall := Quadtree.allBoids_within bp (Quadtree.node c b ne nw se sw) hWF hci
    obtain ⟨hv, hbnil, hne, hnw, hse, hsw, wne, wnw, wse, wsw⟩ := hWF
    obtain ⟨hb, ine, inw, ise, isw⟩ := hci
    exact ⟨hall, ihne wne ine, ihnw wnw inw, ihse wse ise, ihsw wsw isw⟩

theorem Quadtree.query_range_spec (bp : BoidPool) (rect : RectContainer) :
    ∀ qt : Quadtree, qt.hereditarilyWithin bp →
      ∀ id, id ∈ qt.query_range rect bp ↔
        id ∈ qt.allBoids ∧
          rect.contains (bp.get_position id).x (bp.get_position id).y = true := by
  intro qt
  induction qt with
  | leaf c b =>
    intro hh id
    simp only [Quadtree.query_range, Quadtree.allBoids]
    cases hint : c.intersects rect with
    | true =>
      rw [if_neg (by simp [hint])]
      simp [List.mem_filter]
    | false =>
      rw [if_pos (by simp [hint])]
      simp only [List.not_mem_nil, false_iff, not_and]
      intro hid hrect
      have hcid := hh id hid
      exact absurd (RectContainer.intersects_of_common_point c rect _ _ hcid hrect)
        (by simp [hint])
  | node c b ne nw se sw ihne ihnw ihse ihsw =>
    intro hh id
    obtain ⟨hall, hne, hnw, hse, hsw⟩ := hh
    simp only [Quadtree.query_range, Quadtree.allBoids]
    cases hint : c.intersects rect with
    | true =>
      rw [if_neg (by simp [hint])]
      simp only [List.mem_append, List.mem_filter,
        ihne hne id, ihnw hnw id, ihse hse id, ihsw hsw id]
      constructor
      · rintro ((((⟨h1, h2⟩ | ⟨h1, h2⟩) | ⟨h1, h2⟩) | ⟨h1, h2⟩) | ⟨h1, h2⟩)
        · exact ⟨by simp [List.mem_append, h1], h2⟩
        · exact ⟨by simp [List.mem_append, h1], h2⟩
        · exact ⟨by simp [List.mem_append, h1], h2⟩
        · exact ⟨by simp [List.mem_append, h1], h2⟩
        · exact ⟨by simp [List.mem_append, h1], h2⟩
      · rintro ⟨h1, h2⟩
        rcases h1 with (((h1 | h1) | h1) | h1) | h1
        · exact Or.inl (Or.inl (Or.inl (Or.inl ⟨h1, h2⟩)))
        · exact Or.inl (Or.inl (Or.inl (Or.inr ⟨h1, h2⟩)))
        · exact Or.inl (Or.inl (Or.inr ⟨h1, h2⟩))
        · exact Or.inl (Or.inr ⟨h1, h2⟩)
        · exact Or.inr ⟨h1, h2⟩
    | false =>
      rw [if_pos (by simp [hint])]
      simp only [List.not_mem_nil, false_iff, not_and]
      intro hid hrect
      have hcid := hall id hid
      exact absurd (RectContainer.intersects_of_common_point c rect _ _ hcid hrect)
        (by simp [hint])

theorem Quadtree.eq_empty_leaf_of (qt : Quadtree) (hnc : qt.noCollapsible)
    (hz : qt.allBoids = []) : qt = Quadtree.leaf qt.container [] := by
  induction qt with
  | leaf c b =>
    simp only [Quadtree.allBoids] at hz
    subst hz
    rfl
  | node c b ne nw se sw ihne ihnw ihse ihsw =>
    exfalso
    simp only [Quadtree.allBoids, List.append_eq_nil] at hz
    obtain ⟨⟨⟨⟨hb, h1⟩, h2⟩, h3⟩, h4⟩ := hz
    obtain ⟨hae, nne, nnw, nse, nsw⟩ := hnc
    rw [ihne nne h1, ihnw nnw h2, ihse nse h3, ihsw nsw h4] at hae
    simp [Subdivision.all_are_empty, Quadtree.is_empty] at hae

theorem Quadtree.rebalance_vacated_ne (fuel : Nat) (bp : BoidPool)
    (c : RectContainer) (b : List BoidID) (ne nw se sw : Quadtree)
    (out : Quadtree × List BoidID)
    (hWF : (Quadtree.node c b ne nw se sw).WF)
    (hvac : ∀ j ∈ (Quadtree.node c b ne nw se sw).allBoids,
      insideOf (quadrantRect c .NE) bp j = false)
    (hr : Quadtree._rebalance fuel bp (Quadtree.node c b ne nw se sw) = some out) :
    out.1.emptyNE ∧ out.1.container = c := by
  obtain ⟨hv, hbnil, hne, hnw, hse, hsw, wne, wnw, wse, wsw⟩ := hWF
  subst hbnil
  have hvne : ∀ j ∈ ne.allBoids, insideOf (quadrantRect c .NE) bp j = false := by
    intro j hj
    exact hvac j (by simp [Quadtree.allBoids, List.mem_append, hj])
  have hvnw : ∀ j ∈ nw.allBoids, insideOf (quadrantRect c .NE) bp j = false := by
    intro j hj
    exact hvac j (by simp [Quadtree.allBoids, List.mem_append, hj])
  have hvse : ∀ j ∈ se.allBoids, insideOf (quadrantRect c .NE) bp j = false := by
    intro j hj
    exact hvac j (by simp [Quadtree.allBoids, List.mem_append, hj])
  have hvsw : ∀ j ∈ sw.allBoids, insideOf (quadrantRect c .NE) bp j = false := by
    intro j hj
    exact hvac j (by simp [Quadtree.allBoids, List.mem_append, hj])
  simp only [Quadtree._rebalance] at hr
  split at hr
  · exact absurd hr (by simp)
  · rename_i ne' r1 heq1
    split at hr
    · exact absurd hr (by simp)
    · rename_i nw' r2 heq2
      split at hr
      · exact absurd hr (by simp)
      · rename_i se' r3 heq3
        split at hr
        · exact absurd hr (by simp)
        · rename_i sw' r4 heq4
          obtain ⟨a1, a2, a3, a4, a5, a6⟩ :=
            Quadtree._rebalance_spec fuel bp ne (ne', r1) wne heq1
          obtain ⟨b1, b2, b3, b4, b5, b6⟩ :=
            Quadtree._rebalance_spec fuel bp nw (nw', r2) wnw heq2
          obtain ⟨d1, d2, d3, d4, d5, d6⟩ :=
            Quadtree._rebalance_spec fuel bp se (se', r3) wse heq3
          obtain ⟨e1, e2, e3, e4, e5, e6⟩ :=
            Quadtree._rebalance_spec fuel bp sw (sw', r4) wsw heq4
          simp only at a1 a4 a5 a6 b5 b6 d5 d6 e5 e6
          have hzneM : ne'.allBoidsM = 0 := by
            rw [a5, Multiset.filter_eq_nil]
            intro a ha
            have h := hvne a ((Quadtree.mem_allBoidsM_iff ne a).mp ha)
            rw [hne]
            simp [h]
          have hzne : ne'.allBoids = [] := by
            have h := hzneM
            rw [Quadtree.allBoidsM, Multiset.coe_eq_zero] at h
            exact h
          have hneempty : ne'.is_empty = true := by
            rw [Quadtree.eq_empty_leaf_of ne' a4 hzne]
            rfl
          have hmemne : ∀ j, j ∈ ne'.allBoids → False := by
            intro j hj
            rw [hzne] at hj
            cases hj
          have hmemnw : ∀ j ∈ nw'.allBoids,
              insideOf (quadrantRect c .NE) bp j = false := by
            intro j hj
            rw [← Quadtree.mem_allBoidsM_iff, b5] at hj
            exact hvnw j ((Quadtree.mem_allBoidsM_iff nw j).mp
              (Multiset.mem_of_mem_filter hj))
          have hmemse : ∀ j ∈ se'.allBoids,
              insideOf (quadrantRect c .NE) bp j = false := by
            intro j hj
            rw [← Quadtree.mem_allBoidsM_iff, d5] at hj
            exact hvse j ((Quadtree.mem_allBoidsM_iff se j).mp
              (Multiset.mem_of_mem_filter hj))
          have hmemsw : ∀ j ∈ sw'.allBoids,
              insideOf (quadrantRect c .NE) bp j = false := by
            intro j hj
            rw [← Quadtree.mem_allBoidsM_iff, e5] at hj
            exact hvsw j ((Quadtree.mem_allBoidsM_iff sw j).mp
              (Multiset.mem_of_mem_filter hj))
          have hrej : ∀ j ∈ (r1 ++ r2 ++ r3 ++ r4),
              insideOf (quadrantRect c .NE) bp j = false := by
            intro j hj
            simp only [List.mem_append] at hj
            rcases hj with ((hj | hj) | hj) | hj
            · have hm : j ∈ (r1 : Multiset BoidID) := by
                rwa [Multiset.mem_coe]
              rw [a6] at hm
              exact hvne j ((Quadtree.mem_allBoidsM_iff ne j).mp
                (Multiset.mem_of_mem_filter hm))
            · have hm : j ∈ (r2 : Multiset BoidID) := by
                rwa [Multiset.mem_coe]
              rw [b6] at hm
              exact hvnw j ((Quadtree.mem_allBoidsM_iff nw j).mp
                (Multiset.mem_of_mem_filter hm))
            · have hm : j ∈ (r3 : Multiset BoidID) := by
                rwa [Multiset.mem_coe]
              rw [d6] at hm
              exact hvse j ((Quadtree.mem_allBoidsM_iff se j).mp
                (Multiset.mem_of_mem_filter hm))
            · have hm : j ∈ (r4 : Multiset BoidID) := by
                rwa [Multiset.mem_coe]
              rw [e6] at hm
              exact hvsw j ((Quadtree.mem_allBoidsM_iff sw j).mp
                (Multiset.mem_of_mem_filter hm))
          cases hae : Subdivision.all_are_empty ne' nw' se' sw' with
          | true =>
            rw [if_pos hae] at hr
            obtain ⟨t1, -, -, -, -, -, t7⟩ :=
              Quadtree.rebalance_retain_spec fuel bp (r1 ++ r2 ++ r3 ++ r4)
                (Quadtree.leaf c []) out hv hr
            simp only [Quadtree.container] at t1 t7
            refine ⟨t7 hrej ?_ trivial, t1⟩
            intro j hj
            cases hj
          | false =>
            rw [if_neg (by simp [hae])] at hr
            have hWF1 : (Quadtree.node c [] ne' nw' se' sw').WF :=
              ⟨hv, rfl, a1.trans hne, b1.trans hnw, d1.trans hse, e1.trans hsw,
                a2, b2, d2, e2⟩
            obtain ⟨t1, -, -, -, -, -, t7⟩ :=
              Quadtree.rebalance_retain_spec fuel bp (r1 ++ r2 ++ r3 ++ r4)
                (Quadtree.node c [] ne' nw' se' sw') out hWF1 hr
            simp only [Quadtree.container] at t1 t7
            refine ⟨t7 hrej ?_ hneempty, t1⟩
            intro j hj
            simp only [Quadtree.allBoids, List.mem_append] at hj
            rcases hj with (((hj | hj) | hj) | hj) | hj
            · cases hj
            · exact absurd hj (fun h => hmemne j h)
            · exact hmemnw j hj
            · exact hmemse j hj
            · exact hmemsw j hj

theorem Quadtree.runOp_spec (fuel : Nat) (qt : Quadtree) (op : Op)
    (out : Quadtree × List BoidID) (hWF : qt.WF)
    (h : qt.runOp fuel op = some out) :
    out.1.WF ∧ out.1.allBoidsM = qt.allBoidsM + (out.2 : Multiset BoidID) := by
  cases op with
  | insertOp boid_id bp =>
    simp only [Quadtree.runOp] at h
    split at h
    · exact absurd h (by simp)
    · rename_i qt' heqp
      obtain ⟨p1, p2, pmain, pout, -⟩ :=
        Quadtree.push_spec fuel qt boid_id bp (qt', none) hWF heqp
      simp only at p2
      obtain rfl : (qt', [boid_id]) = out := by simpa using h
      cases hin : insideOf qt.container bp boid_id with
      | true =>
        obtain ⟨-, hadd, -, -, -⟩ := pmain hin
        simp only at hadd
        refine ⟨p2, ?_⟩
        show qt'.allBoidsM = qt.allBoidsM + ↑[boid_id]
        rw [hadd, ← Multiset.cons_coe, Multiset.coe_nil, Multiset.add_cons, add_zero]
      | false =>
        obtain ⟨-, habs⟩ := pout hin
        simp at habs
    · rename_i qt' msg heqp
      obtain ⟨p1, p2, pmain, pout, -⟩ :=
        Quadtree.push_spec fuel qt boid_id bp (qt', some msg) hWF heqp
      obtain rfl : (qt', ([] : List BoidID)) = out := by simpa using h
      cases hin : insideOf qt.container bp boid_id with
      | true =>
        obtain ⟨habs, -⟩ := pmain hin
        simp at habs
      | false =>
        obtain ⟨hqt, -⟩ := pout hin
        simp only at hqt
        subst hqt
        exact ⟨hWF, by simp⟩
  | rebalanceOp bp =>
    simp only [Quadtree.runOp] at h
    split at h
    · exact absurd h (by simp)
    · rename_i qt' heqr
      obtain rfl : (qt', ([] : List BoidID)) = out := by simpa using h
      unfold Quadtree.rebalance at heqr
      split at heqr
      · exact absurd heqr (by simp)
      · rename_i qt1 rejects heq2
        split at heqr
        · rename_i hempty
          simp only [Option.some.injEq] at heqr
          subst heqr
          obtain ⟨-, w2, -, -, w5, w6⟩ :=
            Quadtree._rebalance_spec fuel bp qt (qt1, rejects) hWF heq2
          simp only at w2 w5 w6
          refine ⟨w2, ?_⟩
          have hrej0 : (rejects : Multiset BoidID) = 0 := by
            rw [List.isEmpty_iff] at hempty
            simp [hempty]
          have hsplit := insideOf_filter_split qt.container bp qt.allBoidsM
          rw [← w6, hrej0, add_zero] at hsplit
          show qt1.allBoidsM = qt.allBoidsM + (([] : List BoidID) : Multiset BoidID)
          rw [w5, hsplit]
          simp
        · exact absurd heqr (by simp)

theorem Quadtree.runOps_spec (fuel : Nat) :
    ∀ (ops : List Op) (qt : Quadtree) (out : Quadtree × List BoidID),
      qt.WF → Quadtree.runOps fuel qt ops = some out →
      out.1.WF ∧ out.1.allBoidsM = qt.allBoidsM + (out.2 : Multiset BoidID) := by
  intro ops
  induction ops with
  | nil =>
    intro qt out hWF h
    obtain rfl : (qt, ([] : List BoidID)) = out := by
      simpa [Quadtree.runOps] using h
    exact ⟨hWF, by simp⟩
  | cons op rest ih =>
    intro qt out hWF h
    simp only [Quadtree.runOps] at h
    split at h
    · exact absurd h (by simp)
    · rename_i qt1 ins1 heq1
      split at h
      · exact absurd h (by simp)
      · rename_i qt2 ins2 heq2
        obtain rfl : (qt2, ins1 ++ ins2) = out := by simpa using h
        obtain ⟨w1, w2⟩ := Quadtree.runOp_spec fuel qt op (qt1, ins1) hWF heq1
        obtain ⟨v1, v2⟩ := ih qt1 (qt2, ins2) w1 heq2
        simp only at w2 v2
        refine ⟨v1, ?_⟩
        show qt2.allBoidsM = qt.allBoidsM + ↑(ins1 ++ ins2)
        rw [v2, w2]
        simp [add_assoc]

theorem Quadtree.push_leaf_append (fuel : Nat) (c : RectContainer) (b : List BoidID)
    (boid_id : BoidID) (bp : BoidPool)
    (hlen : b.length < QT_CAPACITY)
    (hin : insideOf c bp boid_id = true) :
    Quadtree.push (fuel + 1) (Quadtree.leaf c b) boid_id bp =
      some (Quadtree.leaf c (b ++ [boid_id]), none) := by
  rw [Quadtree.push_succ]
  simp only [Quadtree.push_entry, Quadtree.container]
  rw [if_pos (show c.contains (bp.get_position boid_id).x
    (bp.get_position boid_id).y = true from hin)]
  simp only [Quadtree.push_unchecked_with_position]
  rw [if_pos hlen]

theorem Quadtree.pushAll_leaf (fuel : Nat) (bp : BoidPool) (c : RectContainer) :
    ∀ (ids b : List BoidID),
      b.length + ids.length ≤ QT_CAPACITY →
      (∀ id ∈ ids, insideOf c bp id = true) →
      Quadtree.pushAll (fuel + 1) bp (Quadtree.leaf c b) ids =
        some (Quadtree.leaf c (b ++ ids)) := by
  intro ids
  induction ids with
  | nil =>
    intro b _ _
    simp [Quadtree.pushAll]
  | cons id rest ih =>
    intro b hlen hins
    simp only [Quadtree.pushAll]
    rw [Quadtree.push_leaf_append fuel c b id bp
      (by simp at hlen; omega)
      (hins id (List.mem_cons_self id rest))]
    show Quadtree.pushAll (fuel + 1) bp (Quadtree.leaf c (b ++ [id])) rest =
      some (Quadtree.leaf c (b ++ id :: rest))
    rw [ih (b ++ [id])
      (by simp at hlen ⊢; omega)
      (fun j hj => hins j (List.mem_cons_of_mem id hj))]
    simp

theorem subdivide_loop_ok (fuel : Nat) (bp : BoidPool) (c : RectContainer) :
    ∀ (ids : List BoidID) (bne bnw bse bsw : List BoidID),
      (∀ id ∈ ids, insideOf c bp id = true) →
      bne.length + bnw.length + bse.length + bsw.length + ids.length ≤ QT_CAPACITY →
      ∃ out, subdivide_loop (Quadtree.push (fuel + 1)) bp c ids
        (Quadtree.leaf (quadrantRect c .NE) bne, Quadtree.leaf (quadrantRect c .NW) bnw,
         Quadtree.leaf (quadrantRect c .SE) bse, Quadtree.leaf (quadrantRect c .SW) bsw) =
        some out := by
  intro ids
  induction ids with
  | nil =>
    intro bne bnw bse bsw _ _
    exact ⟨_, rfl⟩
  | cons id rest ih =>
    intro bne bnw bse bsw hins hlen
    simp only [List.length_cons] at hlen
    have hcls : (quadrantRect c
        (find_which_child_of c (bp.get_position id))).contains
        (bp.get_position id).x (bp.get_position id).y = true :=
      quadrantRect_contains_of_contains c (bp.get_position id)
        (hins id (List.mem_cons_self id rest))
    have hrest : ∀ j ∈ rest, insideOf c bp j = true :=
      fun j hj => hins j (List.mem_cons_of_mem id hj)
    simp only [subdivide_loop]
    cases hq : find_which_child_of c (bp.get_position id) with
    | NE =>
      rw [hq] at hcls
      simp only [hq]
      simp only [Quadtree.push_leaf_append fuel (quadrantRect c .NE) bne id bp
        (by simp only [QT_CAPACITY] at hlen ⊢; omega) hcls]
      exact ih (bne ++ [id]) bnw bse bsw hrest (by simp at hlen ⊢; omega)
    | NW =>
      rw [hq] at hcls
      simp only [hq]
      simp only [Quadtree.push_leaf_append fuel (quadrantRect c .NW) bnw id bp
        (by simp only [QT_CAPACITY] at hlen ⊢; omega) hcls]
      exact ih bne (bnw ++ [id]) bse bsw hrest (by simp at hlen ⊢; omega)
    | SE =>
      rw [hq] at hcls
      simp only [hq]
      simp only [Quadtree.push_leaf_append fuel (quadrantRect c .SE) bse id bp
        (by simp only [QT_CAPACITY] at hlen ⊢; omega) hcls]
      exact ih bne bnw (bse ++ [id]) bsw hrest (by simp at hlen ⊢; omega)
    | SW =>
      rw [hq] at hcls
      simp only [hq]
      simp only [Quadtree.push_leaf_append fuel (quadrantRect c .SW) bsw id bp
        (by simp only [QT_CAPACITY] at hlen ⊢; omega) hcls]
      exact ih bne bnw bse (bsw ++ [id]) hrest (by simp at hlen ⊢; omega)

/-- The `.expect` in `Quadtree::subdivide` never fires: on a well-formed leaf
whose boids are all inside its rectangle (and at most `QT_CAPACITY` of them),
the subdivision loop succeeds. -/
theorem Quadtree.subdivide_ok (fuel : Nat) (bp : BoidPool) (c : RectContainer)
    (b : List BoidID)
    (hins : ∀ id ∈ b, insideOf c bp id = true)
    (hlen : b.length ≤ QT_CAPACITY) :
    ∃ out, Quadtree.subdivide (Quadtree.push (fuel + 1)) (Quadtree.leaf c b) bp =
      some out := by
  obtain ⟨(sub : Quadtree × Quadtree × Quadtree × Quadtree), hloop⟩ :=
    subdivide_loop_ok fuel bp c b [] [] [] [] hins (by simpa using hlen)
  refine ⟨Quadtree.node c [] sub.1 sub.2.1 sub.2.2.1 sub.2.2.2, ?_⟩
  unfold Quadtree.subdivide
  simp only [Quadtree.container, Quadtree.boids,
    Subdivision.new_from_parent_container_eq]
  rw [hloop]

theorem Quadtree.hereditarilyWithin_top (bp : BoidPool) (qt : Quadtree)
    (hh : qt.hereditarilyWithin bp) :
    ∀ id ∈ qt.allBoids, insideOf qt.container bp id = true := by
  cases qt with
  | leaf c b => exact hh
  | node c b ne nw se sw => exact hh.1

/-! Claim theorems. -/

/-- C1: Count conservation: for every sequence of insert and rebalance
operations (each with its own position store) in which no operation panics,
starting from a fresh tree, the multiset of ids held across all nodes equals
exactly the multiset of successfully inserted ids — no loss, no
duplication, each id held by exactly one node. -/
theorem spec_C1_count_conservation
    (lx rx ty by_ : Coord) (hx : lx ≤ rx) (hy : ty ≤ by_)
    (fuel : Nat) (ops : List Op) (qt' : Quadtree) (inserted : List BoidID)
    (hrun : Quadtree.runOps fuel (Quadtree.new lx rx ty by_) ops =
      some (qt', inserted)) :
    qt'.allBoidsM = (inserted : Multiset BoidID) := by
  obtain ⟨-, h2⟩ := Quadtree.runOps_spec fuel ops (Quadtree.new lx rx ty by_)
    (qt', inserted) ⟨hx, hy⟩ hrun
  simpa [Quadtree.new, Quadtree.allBoidsM_leaf] using h2

/-- C2: Containment invariant: after a successful insert (from a tree
satisfying the invariant) and after any successful rebalance, every held id
lies inside the rectangle of the leaf holding it and inside every ancestor's
rectangle. -/
theorem spec_C2_containment_invariant :
    (∀ (fuel : Nat) (qt : Quadtree) (boid_id : BoidID) (bp : BoidPool)
        (qt' : Quadtree),
      qt.WF → qt.containsInv bp →
      Quadtree.push fuel qt boid_id bp = some (qt', none) →
      qt'.hereditarilyWithin bp) ∧
    (∀ (fuel : Nat) (qt : Quadtree) (bp : BoidPool) (qt' : Quadtree),
      qt.WF → qt.rebalance fuel bp = some qt' →
      qt'.hereditarilyWithin bp) := by
  constructor
  · intro fuel qt boid_id bp qt' hWF hci hp
    obtain ⟨-, p2, pmain, pout, -⟩ :=
      Quadtree.push_spec fuel qt boid_id bp (qt', none) hWF hp
    simp only at p2
    cases hin : insideOf qt.container bp boid_id with
    | true =>
      obtain ⟨-, -, hpres, -, -⟩ := pmain hin
      exact Quadtree.hereditarilyWithin_of bp qt' p2 (hpres hci)
    | false =>
      obtain ⟨-, habs⟩ := pout hin
      simp at habs
  · intro fuel qt bp qt' hWF hr
    unfold Quadtree.rebalance at hr
    split at hr
    · exact absurd hr (by simp)
    · rename_i qt1 rejects heq
      split at hr
      · simp only [Option.some.injEq] at hr
        subst hr
        obtain ⟨-, w2, w3, -, -, -⟩ :=
          Quadtree._rebalance_spec fuel bp qt (qt1, rejects) hWF heq
        exact Quadtree.hereditarilyWithin_of bp qt1 w2 w3
      · exact absurd hr (by simp)

/-- C4: Rebalance idempotence: a second `rebalance` with no intervening
position change returns the same tree unchanged (and does not panic). -/
theorem spec_C4_rebalance_idempotent (fuel fuel2 : Nat) (qt qt' : Quadtree)
    (bp : BoidPool) (hWF : qt.WF)
    (h1 : qt.rebalance fuel bp = some qt') :
    qt'.rebalance fuel2 bp = some qt' :=
  Quadtree.rebalance_twice fuel fuel2 qt qt' bp hWF h1

/-- C5: Orphan above root is fatal, not silent: the orphans surviving the
full post-order pass are exactly the held ids positioned outside the root
rectangle; if some held id is outside, `rebalance` panics (never silently
drops it); if all are inside, `rebalance` returns normally. -/
theorem spec_C5_orphan_above_root (fuel : Nat) (qt : Quadtree) (bp : BoidPool)
    (qt1 : Quadtree) (rejects : List BoidID)
    (hWF : qt.WF)
    (hreb : Quadtree._rebalance fuel bp qt = some (qt1, rejects)) :
    ((rejects : Multiset BoidID) =
      Multiset.filter (fun id => insideOf qt.container bp id = false)
        qt.allBoidsM) ∧
    ((∃ id ∈ qt.allBoids, insideOf qt.container bp id = false) →
      qt.rebalance fuel bp = none) ∧
    ((∀ id ∈ qt.allBoids, insideOf qt.container bp id = true) →
      qt.rebalance fuel bp = some qt1) := by
  obtain ⟨-, -, -, -, -, w6⟩ :=
    Quadtree._rebalance_spec fuel bp qt (qt1, rejects) hWF hreb
  simp only at w6
  refine ⟨w6, ?_, ?_⟩
  · rintro ⟨id, hid, hout⟩
    unfold Quadtree.rebalance
    rw [hreb]
    have hne : rejects ≠ [] := by
      intro h0
      subst h0
      have : id ∈ (([] : List BoidID) : Multiset BoidID) := by
        rw [w6]
        exact Multiset.mem_filter.mpr
          ⟨(Quadtree.mem_allBoidsM_iff qt id).mpr hid, hout⟩
      simp at this
    show (if rejects.isEmpty = true then some qt1 else none) = none
    rw [if_neg (by simp [List.isEmpty_iff, hne])]
  · intro hall
    unfold Quadtree.rebalance
    rw [hreb]
    have hnil : rejects = [] := by
      have hz : (rejects : Multiset BoidID) = 0 := by
        rw [w6, Multiset.filter_eq_nil]
        intro a ha
        simp [hall a ((Quadtree.mem_allBoidsM_iff qt a).mp ha)]
      simpa [Multiset.coe_eq_zero] using hz
    show (if rejects.isEmpty = true then some qt1 else none) = some qt1
    rw [hnil]
    simp

/-- C7: Insert error boundary and atomicity: the public `push` returns a
recoverable error exactly when the looked-up position is outside the node's
rectangle, and in that case the tree is completely unchanged. -/
theorem spec_C7_insert_error_boundary (fuel : Nat) (qt : Quadtree)
    (boid_id : BoidID) (bp : BoidPool) (qt' : Quadtree) (res : Option String)
    (hWF : qt.WF)
    (hp : Quadtree.push fuel qt boid_id bp = some (qt', res)) :
    (res.isSome = true ↔ insideOf qt.container bp boid_id = false) ∧
    (res.isSome = true → qt' = qt) := by
  obtain ⟨-, -, pmain, pout, -⟩ :=
    Quadtree.push_spec fuel qt boid_id bp (qt', res) hWF hp
  cases hin : insideOf qt.container bp boid_id with
  | true =>
    obtain ⟨hres, -, -, -, -⟩ := pmain hin
    simp only at hres
    subst hres
    simp
  | false =>
    obtain ⟨hqt, hsome⟩ := pout hin
    simp only at hqt hsome
    subst hqt
    exact ⟨by simp [hsome], fun _ => rfl⟩

/-- C3: Query exactness: on a tree satisfying the containment invariant
(including ancestors), `query_range` returns exactly the held ids whose
current position lies inside the query rectangle (inclusive); a query over
the tree's own outer rectangle returns the full held id set; and a held id
whose query rectangle contains its own position appears in that query's
result. -/
theorem spec_C3_query_exactness (qt : Quadtree) (bp : BoidPool)
    (hh : qt.hereditarilyWithin bp) :
    (∀ rect id, id ∈ qt.query_range rect bp ↔
      id ∈ qt.allBoids ∧
        rect.contains (bp.get_position id).x (bp.get_position id).y = true) ∧
    (∀ id, id ∈ qt.query_range qt.container bp ↔ id ∈ qt.allBoids) ∧
    (∀ rect id, id ∈ qt.allBoids →
      rect.contains (bp.get_position id).x (bp.get_position id).y = true →
      id ∈ qt.query_range rect bp) := by
  refine ⟨fun rect id => Quadtree.query_range_spec bp rect qt hh id, ?_, ?_⟩
  · intro id
    rw [Quadtree.query_range_spec bp qt.container qt hh id]
    constructor
    · exact fun h => h.1
    · intro h
      exact ⟨h, Quadtree.hereditarilyWithin_top bp qt hh id h⟩
  · intro rect id hmem hrect
    exact (Quadtree.query_range_spec bp rect qt hh id).mpr ⟨hmem, hrect⟩

theorem Quadtree.subdivide_shape
    (push_fn : Quadtree → BoidID → BoidPool → Option (Quadtree × Option String))
    (self : Quadtree) (bp : BoidPool) (out : Quadtree)
    (h : Quadtree.subdivide push_fn self bp = some out) :
    ∃ ne nw se sw, out = Quadtree.node self.container [] ne nw se sw := by
  simp only [Quadtree.subdivide] at h
  split at h
  · cases h
  · rename_i ne nw se sw heq
    exact ⟨ne, nw, se, sw, by simpa using h.symm⟩

theorem Quadtree.push_to_child_shape
    (push_fn : Quadtree → BoidID → BoidPool → Option (Quadtree × Option String))
    (c : RectContainer) (b : List BoidID) (ne nw se sw : Quadtree)
    (boid_id : BoidID) (bp : BoidPool) (position : Vector2D)
    (out : Quadtree × Option String)
    (h : Quadtree.push_to_child push_fn (Quadtree.node c b ne nw se sw)
      boid_id bp position = some out) :
    ∃ ne' nw' se' sw', out.1 = Quadtree.node c b ne' nw' se' sw' := by
  simp only [Quadtree.push_to_child] at h
  split at h <;>
    (split at h
     · exact absurd h (by simp)
     · rename_i z res heq
       exact ⟨_, _, _, _, by rw [← Option.some.inj h]⟩)

/-- C6: Capacity threshold: pushing exactly `QT_CAPACITY` in-bounds points
into an empty leaf keeps it a leaf holding exactly those points in order;
pushing one more in-bounds point (when it returns) succeeds, subdivides the
node (now internal with an empty direct collection and all points
redistributed), and a full-range query then returns exactly all
`QT_CAPACITY + 1` ids. -/
theorem spec_C6_capacity_threshold
    (c : RectContainer) (hv : c.valid) (bp : BoidPool)
    (ids : List BoidID) (hlen : ids.length = QT_CAPACITY)
    (hins : ∀ id ∈ ids, insideOf c bp id = true)
    (extra : BoidID) (hextra : insideOf c bp extra = true)
    (fuel : Nat) :
    Quadtree.pushAll (fuel + 1) bp (Quadtree.leaf c []) ids =
      some (Quadtree.leaf c ids) ∧
    (∀ (g : Nat) (qt2 : Quadtree) (res : Option String),
      Quadtree.push g (Quadtree.leaf c ids) extra bp = some (qt2, res) →
      res = none ∧ qt2.subdivisions.isSome = true ∧ qt2.boids = [] ∧
      qt2.allBoidsM = extra ::ₘ (ids : Multiset BoidID) ∧
      (∀ j, j ∈ qt2.query_range c bp ↔ j = extra ∨ j ∈ ids)) := by
  constructor
  · have h := Quadtree.pushAll_leaf fuel bp c ids [] (by simp [hlen]) hins
    simpa using h
  · intro g qt2 res hp
    have hWF : (Quadtree.leaf c ids).WF := hv
    obtain ⟨p1, p2, pmain, -, -⟩ :=
      Quadtree.push_spec g _ extra bp (qt2, res) hWF hp
    obtain ⟨hres, hadd, hci, -, -⟩ := pmain hextra
    simp only at hres hadd p1 p2
    rw [Quadtree.allBoidsM_leaf] at hadd
    subst hres
    have hciq : qt2.containsInv bp := hci hins
    have hshape : qt2.subdivisions.isSome = true ∧ qt2.boids = [] := by
      cases g with
      | zero =>
        rw [Quadtree.push_zero] at hp
        cases hp
      | succ n =>
        rw [Quadtree.push_succ] at hp
        simp only [Quadtree.push_entry, Quadtree.container] at hp
        rw [if_pos (show c.contains (bp.get_position extra).x
          (bp.get_position extra).y = true from hextra)] at hp
        simp only [Quadtree.push_unchecked_with_position] at hp
        rw [if_neg (by simp [hlen])] at hp
        split at hp
        · cases hp
        · rename_i qt1 heqsub
          obtain ⟨sne, snw, sse, ssw, rfl⟩ :=
            Quadtree.subdivide_shape _ _ bp qt1 heqsub
          obtain ⟨ne', nw', se', sw', hout⟩ :=
            Quadtree.push_to_child_shape _ _ _ _ _ _ _ extra bp _ (qt2, none) hp
          simp only at hout
          rw [hout]
          exact ⟨rfl, rfl⟩
    refine ⟨rfl, hshape.1, hshape.2, hadd, ?_⟩
    intro j
    have hh := Quadtree.hereditarilyWithin_of bp qt2 p2 hciq
    rw [Quadtree.query_range_spec bp c qt2 hh j]
    constructor
    · rintro ⟨hmem, -⟩
      have : j ∈ qt2.allBoidsM := (Quadtree.mem_allBoidsM_iff qt2 j).mpr hmem
      rw [hadd, Multiset.mem_cons] at this
      rcases this with rfl | hj
      · exact Or.inl rfl
      · exact Or.inr (by rwa [Multiset.mem_coe] at hj)
    · intro hj
      have hmem : j ∈ qt2.allBoids := by
        rw [← Quadtree.mem_allBoidsM_iff, hadd, Multiset.mem_cons]
        rcases hj with rfl | hj
        · exact Or.inl rfl
        · exact Or.inr (by rwa [Multiset.mem_coe])
      refine ⟨hmem, ?_⟩
      rcases hj with rfl | hj
      · exact hextra
      · exact hins j hj

/-- C8: Deterministic tiling and unreachable delegation failure: the four
quadrant rectangles exactly tile a valid parent rectangle (a point is inside
the parent iff it is inside some quadrant, and a point in two distinct
quadrants lies on the midpoint boundary); a coordinate equal to the midpoint
classifies to the west/north side; the classified quadrant always contains
the point; on well-formed trees an in-bounds push never reports an error;
and the subdivide-time reinsertion never hits its failure branch. -/
theorem spec_C8_tiling_and_delegation :
    (∀ c : RectContainer, c.valid → ∀ x y : Coord,
      (c.contains x y = true ↔ ∃ q, (quadrantRect c q).contains x y = true)) ∧
    (∀ (c : RectContainer) (q1 q2 : Quadrant) (x y : Coord), q1 ≠ q2 →
      (quadrantRect c q1).contains x y = true →
      (quadrantRect c q2).contains x y = true →
      x = (c.lx + c.rx) / 2 ∨ y = (c.ty + c.by_) / 2) ∧
    (∀ (c : RectContainer) (p : Vector2D), p.x ≤ (c.lx + c.rx) / 2 →
      find_which_child_of c p = Quadrant.NW ∨
        find_which_child_of c p = Quadrant.SW) ∧
    (∀ (c : RectContainer) (p : Vector2D), p.y ≤ (c.ty + c.by_) / 2 →
      find_which_child_of c p = Quadrant.NW ∨
        find_which_child_of c p = Quadrant.NE) ∧
    (∀ (c : RectContainer) (p : Vector2D), c.contains p.x p.y = true →
      (quadrantRect c (find_which_child_of c p)).contains p.x p.y = true) ∧
    (∀ (fuel : Nat) (qt : Quadtree) (boid_id : BoidID) (bp : BoidPool)
        (out : Quadtree × Option String),
      qt.WF → insideOf qt.container bp boid_id = true →
      Quadtree.push fuel qt boid_id bp = some out → out.2 = none) ∧
    (∀ (fuel : Nat) (bp : BoidPool) (c : RectContainer) (b : List BoidID),
      (∀ id ∈ b, insideOf c bp id = true) → b.length ≤ QT_CAPACITY →
      ∃ out, Quadtree.subdivide (Quadtree.push (fuel + 1))
        (Quadtree.leaf c b) bp = some out) := by
  refine ⟨?_, ?_, find_which_child_of_west, find_which_child_of_north,
    quadrantRect_contains_of_contains, ?_, ?_⟩
  · intro c hv x y
    constructor
    · intro h
      exact ⟨find_which_child_of c ⟨x, y⟩,
        quadrantRect_contains_of_contains c ⟨x, y⟩ h⟩
    · rintro ⟨q, hq⟩
      exact contains_of_quadrantRect_contains c hv q x y hq
  · exact fun c q1 q2 x y hne h1 h2 =>
      quadrant_overlap_on_boundary c q1 q2 hne x y h1 h2
  · intro fuel qt boid_id bp out hWF hin hp
    obtain ⟨-, -, pmain, -, -⟩ :=
      Quadtree.push_spec fuel qt boid_id bp out hWF hp
    exact (pmain hin).1
  · exact fun fuel bp c b hins hlen => Quadtree.subdivide_ok fuel bp c b hins hlen

/-- C9: Collapse: `push` never turns an internal node back into a leaf (the
Internal-to-Leaf transition happens only inside rebalance); during rebalance
a node whose four children all rebalance to empty leaves (with no orphans)
discards its subdivision and becomes a leaf; and after all points vacate the
NE quadrant (no held id is positioned inside it), rebalancing leaves the NE
child, if the node is still subdivided, an empty leaf. -/
theorem spec_C9_collapse :
    (∀ (fuel : Nat) (qt : Quadtree) (boid_id : BoidID) (bp : BoidPool)
        (out : Quadtree × Option String),
      qt.WF → Quadtree.push fuel qt boid_id bp = some out →
      qt.subdivisions.isSome = true → out.1.subdivisions.isSome = true) ∧
    (∀ (fuel : Nat) (bp : BoidPool) (c : RectContainer) (b : List BoidID)
        (ne nw se sw ne' nw' se' sw' : Quadtree),
      Quadtree._rebalance fuel bp ne = some (ne', []) →
      Quadtree._rebalance fuel bp nw = some (nw', []) →
      Quadtree._rebalance fuel bp se = some (se', []) →
      Quadtree._rebalance fuel bp sw = some (sw', []) →
      Subdivision.all_are_empty ne' nw' se' sw' = true →
      Quadtree._rebalance fuel bp (Quadtree.node c b ne nw se sw) =
        some (Quadtree.leaf c b, [])) ∧
    (∀ (fuel : Nat) (bp : BoidPool) (c : RectContainer) (b : List BoidID)
        (ne nw se sw : Quadtree) (out : Quadtree × List BoidID),
      (Quadtree.node c b ne nw se sw).WF →
      (∀ j ∈ (Quadtree.node c b ne nw se sw).allBoids,
        insideOf (quadrantRect c .NE) bp j = false) →
      Quadtree._rebalance fuel bp (Quadtree.node c b ne nw se sw) = some out →
      out.1.emptyNE ∧ out.1.container = c) := by
  refine ⟨?_, ?_, ?_⟩
  · intro fuel qt boid_id bp out hWF hp hsub
    obtain ⟨-, -, pmain, pout, -⟩ :=
      Quadtree.push_spec fuel qt boid_id bp out hWF hp
    cases hin : insideOf qt.container bp boid_id with
    | true => exact (pmain hin).2.2.2.2 hsub
    | false =>
      obtain ⟨hqt, -⟩ := pout hin
      rw [hqt]
      exact hsub
  · intro fuel bp c b ne nw se sw ne' nw' se' sw' h1 h2 h3 h4 hae
    simp only [Quadtree._rebalance, h1, h2, h3, h4, List.append_nil]
    rw [if_pos hae]
    simp [Quadtree.rebalance_retain]
  · intro fuel bp c b ne nw se sw out hWF hvac hr
    exact Quadtree.rebalance_vacated_ne fuel bp c b ne nw se sw out hWF hvac hr

/-- C10: `is_empty` is a purely local test: it returns true exactly when the
node is an undivided leaf holding zero points; in particular any internal
node reports non-empty regardless of its subtree's contents. -/
theorem spec_C10_is_empty_local :
    (∀ qt : Quadtree, qt.is_empty = true ↔
      qt.subdivisions = none ∧ qt.boids = []) ∧
    (∀ (c : RectContainer) (b : List BoidID) (ne nw se sw : Quadtree),
      (Quadtree.node c b ne nw se sw).is_empty = false) := by
  constructor
  · intro qt
    cases qt with
    | leaf c b =>
      simp [Quadtree.is_empty, Quadtree.subdivisions, Quadtree.boids,
        List.isEmpty_iff]
    | node c b ne nw se sw =>
      simp [Quadtree.is_empty, Quadtree.subdivisions, Quadtree.boids]
  · intro c b ne nw se sw
    rfl

/-! Concrete inputs for the witnesses. -/

/-- Witness lookup: boid `id` sits at `(5 id + 1, 3 id + 1)`. -/
def bpW : BoidPool := fun id => ⟨(id : ℚ) * 5 + 1, (id : ℚ) * 3 + 1⟩

/-- Witness lookup placing every boid outside the witness world rectangle. -/
def bpOut : BoidPool := fun _ => ⟨200, 200⟩

/-- Witness world rectangle. -/
def rectW : RectContainer := RectContainer.new 0 100 0 100

/-- Exactly `QT_CAPACITY` ids. -/
def idsW : List BoidID := [0, 1, 2, 3, 4, 5, 6, 7, 8, 9, 10, 11]

/-- The tree obtained by pushing `idsW` and then id 12 into an empty leaf
over `rectW` with positions from `bpW`. -/
def qtW : Quadtree :=
  Quadtree.node rectW []
    (Quadtree.leaf (RectContainer.new 50 100 0 50) [10, 11, 12])
    (Quadtree.leaf (RectContainer.new 0 50 0 50) [0, 1, 2, 3, 4, 5, 6, 7, 8, 9])
    (Quadtree.leaf (RectContainer.new 50 100 50 100) [])
    (Quadtree.leaf (RectContainer.new 0 50 50 100) [])

theorem qtW_WF : qtW.WF :=
  ⟨⟨by decide, by decide⟩, rfl, by decide, by decide, by decide, by decide,
    ⟨by decide, by decide⟩, ⟨by decide, by decide⟩,
    ⟨by decide, by decide⟩, ⟨by decide, by decide⟩⟩

theorem spec_C1_witness :
    (Quadtree.leaf (RectContainer.new 0 100 0 100) [0]).allBoidsM =
      (([0] : List BoidID) : Multiset BoidID) :=
  spec_C1_count_conservation 0 100 0 100 (by decide) (by decide) 2
    [Op.insertOp 0 bpW, Op.rebalanceOp bpW]
    (Quadtree.leaf (RectContainer.new 0 100 0 100) [0]) [0] (by rfl)

theorem spec_C2_witness :
    (Quadtree.leaf (RectContainer.new 0 100 0 100) [0]).hereditarilyWithin bpW :=
  spec_C2_containment_invariant.1 2 (Quadtree.new 0 100 0 100) 0 bpW
    (Quadtree.leaf (RectContainer.new 0 100 0 100) [0])
    ⟨by decide, by decide⟩ (by intro id hid; cases hid) (by rfl)

theorem spec_C3_witness :
    (0 : BoidID) ∈ (Quadtree.leaf (RectContainer.new 0 100 0 100)
      [0]).query_range (RectContainer.new 0 100 0 100) bpW :=
  (spec_C3_query_exactness (Quadtree.leaf (RectContainer.new 0 100 0 100) [0]) bpW
      (by intro id hid; simp only [Quadtree.allBoids, List.mem_singleton] at hid
          subst hid; decide)).2.2
    (RectContainer.new 0 100 0 100) 0 (List.mem_singleton.mpr rfl) (by decide)

theorem spec_C4_witness :
    qtW.rebalance 3 bpW = some qtW :=
  spec_C4_rebalance_idempotent 3 3 qtW qtW bpW qtW_WF (by rfl)

theorem spec_C5_witness :
    (Quadtree.leaf (RectContainer.new 0 100 0 100) [0]).rebalance 1 bpOut = none :=
  (spec_C5_orphan_above_root 1 (Quadtree.leaf (RectContainer.new 0 100 0 100) [0])
      bpOut (Quadtree.leaf (RectContainer.new 0 100 0 100) []) [0]
      ⟨by decide, by decide⟩ (by rfl)).2.1
    ⟨0, by simp [Quadtree.allBoids], by decide⟩

theorem spec_C6_witness :
    Quadtree.pushAll 2 bpW (Quadtree.leaf rectW []) idsW =
      some (Quadtree.leaf rectW idsW) ∧
    qtW.subdivisions.isSome = true ∧ qtW.boids = [] ∧
    qtW.allBoidsM = 12 ::ₘ (idsW : Multiset BoidID) ∧
    ((5 : BoidID) ∈ qtW.query_range rectW bpW ↔ 5 = 12 ∨ (5 : BoidID) ∈ idsW) := by
  have h := spec_C6_capacity_threshold rectW ⟨by decide, by decide⟩ bpW idsW rfl
    (by decide) 12 (by decide) 1
  have h2 := h.2 3 qtW none (by rfl)
  exact ⟨h.1, h2.2.1, h2.2.2.1, h2.2.2.2.1, h2.2.2.2.2 5⟩

theorem spec_C7_witness :
    ((some "The boid with id 0 cannot go in this quadtree." :
        Option String).isSome = true ↔ insideOf rectW bpOut 0 = false) ∧
    ((some "The boid with id 0 cannot go in this quadtree." :
        Option String).isSome = true →
      Quadtree.leaf rectW [] = Quadtree.leaf rectW []) :=
  spec_C7_insert_error_boundary 1 (Quadtree.leaf rectW []) 0 bpOut
    (Quadtree.leaf rectW [])
    (some "The boid with id 0 cannot go in this quadtree.")
    ⟨by decide, by decide⟩ (by rfl)

theorem spec_C8_witness :
    (quadrantRect rectW (find_which_child_of rectW ⟨1, 1⟩)).contains 1 1 = true :=
  spec_C8_tiling_and_delegation.2.2.2.2.1 rectW ⟨1, 1⟩ (by decide)

theorem spec_C9_witness :
    Quadtree._rebalance 1 bpW
      (Quadtree.node rectW []
        (Quadtree.leaf (RectContainer.new 50 100 0 50) [])
        (Quadtree.leaf (RectContainer.new 0 50 0 50) [])
        (Quadtree.leaf (RectContainer.new 50 100 50 100) [])
        (Quadtree.leaf (RectContainer.new 0 50 50 100) [])) =
      some (Quadtree.leaf rectW [], []) :=
  spec_C9_collapse.2.1 1 bpW rectW []
    (Quadtree.leaf (RectContainer.new 50 100 0 50) [])
    (Quadtree.leaf (RectContainer.new 0 50 0 50) [])
    (Quadtree.leaf (RectContainer.new 50 100 50 100) [])
    (Quadtree.leaf (RectContainer.new 0 50 50 100) [])
    (Quadtree.leaf (RectContainer.new 50 100 0 50) [])
    (Quadtree.leaf (RectContainer.new 0 50 0 50) [])
    (Quadtree.leaf (RectContainer.new 50 100 50 100) [])
    (Quadtree.leaf (RectContainer.new 0 50 50 100) [])
    (by rfl) (by rfl) (by rfl) (by rfl) (by rfl)
